import Mathlib

/-!
Shallow embedding of the Piece-Table text engine (`src/piece_table.rs`,
`src/history.rs`, `src/history/change.rs`, `src/history/commit.rs`,
`src/history/entry.rs`, `src/piece_table/piece.rs`,
`src/piece_table/display_trait.rs`).

Strings are modelled as `List Char` (the engine never inspects content, it
only does offset arithmetic on the two logs).  Rust `assert!` panics are
modelled as `Except.error`: the argument-validation panics map to the
distinct conditions `outOfRange`, `emptyInput`, `invalidRange`, and the
internal-consistency panics map to `corrupt`.
-/

/-- Source log of a piece (`PieceSource` in `piece.rs`). -/
inductive PieceSource
  | original
  | addition
deriving DecidableEq, Repr

/-- Span reference `(source, offset, length)` into one of the two logs
(`Piece` in `piece.rs`). -/
structure Piece where
  source : PieceSource
  offset : Nat
  length : Nat
deriving DecidableEq, Repr

instance : Inhabited Piece :=
  ⟨⟨PieceSource.original, 0, 0⟩⟩

/-- Kind of a recorded piece-sequence mutation (`ChangeType` in `change.rs`). -/
inductive ChangeType
  | deletion
  | insertion
deriving DecidableEq, Repr

/-- One recorded piece-sequence mutation (`Change` in `change.rs`). -/
structure Change where
  pos : Nat
  piece : Piece
  typ : ChangeType
deriving DecidableEq, Repr

/-- Ordered list of changes representing one logical edit
(`Commit` in `commit.rs`). -/
structure Commit where
  changes : List Change
deriving DecidableEq, Repr

/-- History node (`Entry` in `entry.rs`). -/
structure Entry where
  previous : Option Nat
  next : List Nat
  hot_path : Option Nat
  commit : Commit
deriving DecidableEq, Repr

/-- Arena of history entries plus head pointer (`History` in `history.rs`). -/
structure History where
  changes : List Entry
  head : Nat
deriving DecidableEq, Repr

/-- Panic conditions of the Rust code.  The first three are the
argument-validation failures; `corrupt` stands for the fatal
internal-consistency assertions. -/
inductive Err
  | outOfRange
  | emptyInput
  | invalidRange
  | corrupt
deriving DecidableEq, Repr

/-- The piece table itself (`PieceTable` in `piece_table.rs`). -/
structure PieceTable where
  original : List Char
  addition : List Char
  pieces : List Piece
  total_length : Nat
  history : History
deriving DecidableEq, Repr

/-- Fresh single-root history (`History::new`). -/
def History.new (c : Commit) : History :=
  { changes := [{ previous := none, next := [], hot_path := none, commit := c }], head := 0 }

/-- Embeds `History::save`: append a new entry as child of the current head
and advance the head to it. -/
def History.save (h : History) (c : Commit) : Except Err History :=
  if h.changes.isEmpty then .error .corrupt
  else if hh : h.head < h.changes.length then
    let prev_head := h.head
    let new_head := h.changes.length
    let e := h.changes.get ⟨prev_head, hh⟩
    let changes := h.changes.set prev_head { e with next := e.next ++ [new_head] }
    .ok { changes := changes ++ [{ previous := some prev_head, next := [], hot_path := none, commit := c }],
          head := new_head }
  else .error .corrupt

/-- Embeds `History::undo`: move the head to its parent, record the hot path,
and hand back the commit of the entry that was left.  `none` models the
root-entry early return of the `?` operator. -/
def History.undo (h : History) : Except Err (Option (Commit × History)) :=
  if h.changes.isEmpty then .error .corrupt
  else if hh : h.head < h.changes.length then
    let prev_head := h.head
    match (h.changes.get ⟨prev_head, hh⟩).previous with
    | none => .ok none
    | some p =>
      if hp : p < h.changes.length then
        let e := h.changes.get ⟨p, hp⟩
        .ok (some ((h.changes.get ⟨prev_head, hh⟩).commit,
          { changes := h.changes.set p { e with hot_path := some prev_head }, head := p }))
      else .error .corrupt
  else .error .corrupt

/-- Embeds `History::hot_redo`: follow the head's hot path if present. -/
def History.hot_redo (h : History) : Except Err (Option (Commit × History)) :=
  if h.changes.isEmpty then .error .corrupt
  else if hh : h.head < h.changes.length then
    match (h.changes.get ⟨h.head, hh⟩).hot_path with
    | none => .ok none
    | some hot_head =>
      if hhot : hot_head < h.changes.length then
        if (h.changes.get ⟨h.head, hh⟩).next.contains hot_head then
          .ok (some ((h.changes.get ⟨hot_head, hhot⟩).commit, { h with head := hot_head }))
        else .error .corrupt
      else .error .corrupt
  else .error .corrupt

/-- Embeds `PieceTable::from`. -/
def PieceTable.fromString (s : List Char) : PieceTable :=
  { original := s
    addition := []
    pieces := if s.isEmpty then [] else [⟨PieceSource.original, 0, s.length⟩]
    total_length := s.length
    history := History.new ⟨[]⟩ }

/-- Embeds the piece-finding loop of `PieceTable::insert`: returns the index
of the piece whose span contains `pos` together with `pos` made local to that
piece (and `(0, pos)` when the loop falls through without a break, matching
the untouched `idx = 0` / unmodified `pos` of the Rust loop). -/
def insertScan : List Piece → Nat → Nat → Nat → Nat × Nat
  | [], _, _, pos => (0, pos)
  | p :: rest, i, len, pos =>
    if len + p.length ≤ pos then insertScan rest (i + 1) (len + p.length) pos
    else (i, pos - len)

/-- Embeds `PieceTable::insert`. -/
def PieceTable.insert (t : PieceTable) (pos : Nat) (s : List Char) : Except Err PieceTable :=
  if pos > t.total_length then .error .outOfRange
  else if s.isEmpty then .error .emptyInput
  else
    let special_case := pos = 0 ∨ pos = t.total_length
    let piece : Piece := ⟨PieceSource.addition, t.addition.length, s.length⟩
    let t' := { t with total_length := t.total_length + s.length, addition := t.addition ++ s }
    if special_case then
      let idx := if pos = 0 then 0 else t'.pieces.length
      let pieces := List.insertIdx idx piece t'.pieces
      let commit : Commit := ⟨[⟨idx, piece, ChangeType.insertion⟩]⟩
      (t'.history.save commit).map fun h => { t' with pieces := pieces, history := h }
    else
      let scan := insertScan t'.pieces 0 0 pos
      let idx := scan.1
      let lpos := scan.2
      if lpos = 0 then
        let pieces := List.insertIdx idx piece t'.pieces
        let commit : Commit := ⟨[⟨idx, piece, ChangeType.insertion⟩]⟩
        (t'.history.save commit).map fun h => { t' with pieces := pieces, history := h }
      else
        let old := t'.pieces.getD idx default
        let trailing : Piece := ⟨old.source, old.offset + lpos, old.length - lpos⟩
        let shrunk : Piece := { old with length := lpos }
        let pieces :=
          List.insertIdx (idx + 2) trailing
            (List.insertIdx (idx + 1) piece (t'.pieces.set idx shrunk))
        let commit : Commit :=
          ⟨[⟨idx, old, ChangeType.deletion⟩, ⟨idx, shrunk, ChangeType.insertion⟩,
            ⟨idx + 1, piece, ChangeType.insertion⟩, ⟨idx + 2, trailing, ChangeType.insertion⟩]⟩
        (t'.history.save commit).map fun h => { t' with pieces := pieces, history := h }

/-- Embeds `PieceTable::append`. -/
def PieceTable.append (t : PieceTable) (s : List Char) : Except Err PieceTable :=
  t.insert t.total_length s

/-- Classified per-piece removal operation (the local `enum Remove` of
`PieceTable::remove`). -/
inductive RemoveOp
  | End (idx len : Nat)
  | Full (idx : Nat)
  | Start (idx len : Nat)
  | Slice (idx offset : Nat)
deriving DecidableEq, Repr

/-- Embeds the classification loop of `PieceTable::remove`. -/
def classifyGo (pos n : Nat) : List Piece → Nat → Nat → List RemoveOp
  | [], _, _ => []
  | p :: rest, idx, len =>
    if pos + n ≤ len then []
    else
      let prev_len := len
      let len2 := len + p.length
      let rest' := classifyGo pos n rest (idx + 1) len2
      if ¬ pos ≤ prev_len ∧ (pos + n ≥ len2 ∧ len2 > pos) then
        RemoveOp.End idx (len2 - pos) :: rest'
      else if pos ≤ prev_len ∧ (pos + n ≥ len2 ∧ len2 > pos) then
        RemoveOp.Full idx :: rest'
      else if pos ≤ prev_len ∧ ¬ (pos + n ≥ len2 ∧ len2 > pos) then
        RemoveOp.Start idx (pos + n - prev_len) :: rest'
      else if prev_len < pos ∧ pos + n < len2 then
        RemoveOp.Slice idx (pos - prev_len) :: rest'
      else rest'

/-- Embeds one iteration of the application loop of `PieceTable::remove`
(the loop runs over the classified operations in reverse index order).
The faulty trailing-piece offset of the `Slice` arm is translated verbatim
from the source (`*offset + n`, the piece's own offset is not added). -/
def applyRemove (n : Nat) (st : List Piece × List Change) (op : RemoveOp) :
    List Piece × List Change :=
  match op with
  | RemoveOp.End idx len =>
    let old := st.1.getD idx default
    let newp : Piece := { old with length := old.length - len }
    (st.1.set idx newp,
     st.2 ++ [⟨idx, old, ChangeType.deletion⟩, ⟨idx, newp, ChangeType.insertion⟩])
  | RemoveOp.Full idx =>
    let old := st.1.getD idx default
    (st.1.eraseIdx idx, st.2 ++ [⟨idx, old, ChangeType.deletion⟩])
  | RemoveOp.Start idx len =>
    let old := st.1.getD idx default
    let newp : Piece := { old with length := old.length - len, offset := old.offset + len }
    (st.1.set idx newp,
     st.2 ++ [⟨idx, old, ChangeType.deletion⟩, ⟨idx, newp, ChangeType.insertion⟩])
  | RemoveOp.Slice idx offset =>
    let old := st.1.getD idx default
    let leading : Piece := ⟨old.source, old.offset, offset⟩
    let trailing_len := old.length - offset - n
    let trailing : Piece := ⟨old.source, offset + n, trailing_len⟩
    (List.insertIdx (idx + 1) trailing (st.1.set idx leading),
     st.2 ++ [⟨idx, old, ChangeType.deletion⟩, ⟨idx, leading, ChangeType.insertion⟩,
              ⟨idx + 1, trailing, ChangeType.insertion⟩])

/-- Embeds `PieceTable::remove`. -/
def PieceTable.remove (t : PieceTable) (pos n : Nat) : Except Err PieceTable :=
  if pos + n > t.total_length then .error .outOfRange
  else if n = 0 then .error .emptyInput
  else
    let ops := classifyGo pos n t.pieces 0 0
    let res := ops.reverse.foldl (applyRemove n) (t.pieces, [])
    (t.history.save ⟨res.2⟩).map fun h =>
      { t with pieces := res.1, total_length := t.total_length - n, history := h }

/-- Embeds the replay loop of `PieceTable::undo` (which walks the commit's
changes in reverse): a Deletion change re-inserts the recorded piece, an
Insertion change removes the piece at the recorded position.  The argument
list is the already-reversed change list; the bounds assertions of the Rust
loop are the explicit checks. -/
def replayBack (orig add : List Char) :
    List Change → List Piece → Nat → Except Err (List Piece × Nat)
  | [], l, tl => .ok (l, tl)
  | c :: cs, l, tl =>
    let src_len := match c.piece.source with
      | PieceSource.original => orig.length
      | PieceSource.addition => add.length
    if c.piece.offset + c.piece.length ≤ src_len then
      match c.typ with
      | ChangeType.deletion =>
        if c.pos ≤ l.length then
          replayBack orig add cs (List.insertIdx c.pos c.piece l) (tl + c.piece.length)
        else .error .corrupt
      | ChangeType.insertion =>
        if h : c.pos < l.length then
          replayBack orig add cs (l.eraseIdx c.pos) (tl - (l.get ⟨c.pos, h⟩).length)
        else .error .corrupt
    else .error .corrupt

/-- Embeds the replay loop of `PieceTable::hot_redo` (which walks the
commit's changes forward): a Deletion change removes the piece at the
recorded position, an Insertion change inserts the recorded piece. -/
def replayFwd (orig add : List Char) :
    List Change → List Piece → Nat → Except Err (List Piece × Nat)
  | [], l, tl => .ok (l, tl)
  | c :: cs, l, tl =>
    let src_len := match c.piece.source with
      | PieceSource.original => orig.length
      | PieceSource.addition => add.length
    if c.piece.offset + c.piece.length ≤ src_len then
      match c.typ with
      | ChangeType.deletion =>
        if h : c.pos < l.length then
          replayFwd orig add cs (l.eraseIdx c.pos) (tl - (l.get ⟨c.pos, h⟩).length)
        else .error .corrupt
      | ChangeType.insertion =>
        if c.pos ≤ l.length then
          replayFwd orig add cs (List.insertIdx c.pos c.piece l) (tl + c.piece.length)
        else .error .corrupt
    else .error .corrupt

/-- Embeds `PieceTable::undo`. -/
def PieceTable.undo (t : PieceTable) : Except Err PieceTable :=
  match t.history.undo with
  | .error e => .error e
  | .ok none => .ok t
  | .ok (some (c, h)) =>
    (replayBack t.original t.addition c.changes.reverse t.pieces t.total_length).map
      fun r => { t with pieces := r.1, total_length := r.2, history := h }

/-- Embeds `PieceTable::hot_redo`. -/
def PieceTable.hot_redo (t : PieceTable) : Except Err PieceTable :=
  match t.history.hot_redo with
  | .error e => .error e
  | .ok none => .ok t
  | .ok (some (c, h)) =>
    (replayFwd t.original t.addition c.changes t.pieces t.total_length).map
      fun r => { t with pieces := r.1, total_length := r.2, history := h }

/-- Byte range `[a, b)` of a log, the counterpart of Rust's `&source[a..b]`
 (total: out-of-range parts are clipped; all uses proved in bounds). -/
def extractS (s : List Char) (a b : Nat) : List Char :=
  (s.drop a).take (b - a)

/-- Embeds the piece walk of `PieceTable::_slice`. -/
def sliceGo (orig add : List Char) (lower upper : Nat) : List Piece → Nat → List Char
  | [], _ => []
  | p :: rest, len =>
    if upper ≤ len then []
    else
      let prev_len := len
      let len2 := len + p.length
      let source := match p.source with
        | PieceSource.original => orig
        | PieceSource.addition => add
      let part :=
        if ¬ lower ≤ prev_len ∧ (upper ≥ len2 ∧ len2 > lower) then
          extractS source (p.offset + (lower - prev_len)) (p.offset + p.length)
        else if lower ≤ prev_len ∧ (upper ≥ len2 ∧ len2 > lower) then
          extractS source p.offset (p.offset + p.length)
        else if lower ≤ prev_len ∧ ¬ (upper ≥ len2 ∧ len2 > lower) then
          extractS source p.offset (p.offset + (upper - prev_len))
        else if prev_len < lower ∧ upper < len2 then
          extractS source (p.offset + (lower - prev_len)) (p.offset + (upper - prev_len))
        else []
      part ++ sliceGo orig add lower upper rest len2

/-- Embeds `PieceTable::_slice` (`upper` exclusive). -/
def PieceTable.sliceImpl (t : PieceTable) (lower upper : Nat) : Except Err (List Char) :=
  if ¬ lower < upper then .error .invalidRange
  else if ¬ upper ≤ t.total_length then .error .outOfRange
  else .ok (sliceGo t.original t.addition lower upper t.pieces 0)

/-- Embeds the `Display` implementation (`display_trait.rs`): empty string
for an empty table, otherwise `_slice(0, total_length)`. -/
def PieceTable.render (t : PieceTable) : List Char :=
  if t.total_length = 0 then []
  else (t.sliceImpl 0 t.total_length).toOption.getD []

/-- One public edit of the buffer. -/
inductive Edit
  | ins (pos : Nat) (s : List Char)
  | app (s : List Char)
  | rem (pos n : Nat)
deriving DecidableEq, Repr

/-- Runs one public edit. -/
def applyEdit (e : Edit) (t : PieceTable) : Except Err PieceTable :=
  match e with
  | Edit.ins pos s => t.insert pos s
  | Edit.app s => t.append s
  | Edit.rem pos n => t.remove pos n

/-- Buffers reachable from `PieceTable::from` by successful public
operations. -/
inductive Reachable : PieceTable → Prop
  | create (s : List Char) : Reachable (PieceTable.fromString s)
  | edit {t t' : PieceTable} (e : Edit) :
      Reachable t → applyEdit e t = .ok t' → Reachable t'
  | undo {t t' : PieceTable} :
      Reachable t → t.undo = .ok t' → Reachable t'
  | hot_redo {t t' : PieceTable} :
      Reachable t → t.hot_redo = .ok t' → Reachable t'

/-- Sum of the lengths of a piece list. -/
def sumLens (l : List Piece) : Nat :=
  (l.map Piece.length).sum

/-- Length of the log a piece refers to. -/
def srcLen (orig add : List Char) (p : Piece) : Nat :=
  match p.source with
  | PieceSource.original => orig.length
  | PieceSource.addition => add.length

/-- Wellformedness of a piece with respect to the two logs. -/
def pieceWF (orig add : List Char) (p : Piece) : Prop :=
  p.offset + p.length ≤ srcLen orig add p

instance (orig add : List Char) (p : Piece) : Decidable (pieceWF orig add p) := by
  unfold pieceWF
  infer_instance

/-- Text a piece denotes. -/
def pieceText (orig add : List Char) (p : Piece) : List Char :=
  extractS (match p.source with
    | PieceSource.original => orig
    | PieceSource.addition => add) p.offset (p.offset + p.length)

/-- Concatenated text of a piece list. -/
def piecesText (orig add : List Char) (l : List Piece) : List Char :=
  (l.map (pieceText orig add)).flatten

/-- Byte substring `s[a:b]` of the spec. -/
def strSlice (s : List Char) (a b : Nat) : List Char :=
  (s.drop a).take (b - a)

/-! ### Basic list bookkeeping lemmas -/

theorem sumLens_nil : sumLens [] = 0 := rfl

theorem sumLens_cons (p : Piece) (l : List Piece) :
    sumLens (p :: l) = p.length + sumLens l := by
  simp [sumLens]

theorem sumLens_append (a b : List Piece) :
    sumLens (a ++ b) = sumLens a + sumLens b := by
  simp [sumLens]

theorem sumLens_insertIdx :
    ∀ (i : Nat) (a : Piece) (l : List Piece), i ≤ l.length →
      sumLens (List.insertIdx i a l) = a.length + sumLens l
  | 0, a, l, _ => by simp [List.insertIdx_zero, sumLens_cons]
  | i + 1, a, [], h => by simp at h
  | i + 1, a, p :: l, h => by
    simp only [List.insertIdx_succ_cons, sumLens_cons,
      sumLens_insertIdx i a l (by simpa using h)]
    omega

theorem sumLens_eraseIdx :
    ∀ (l : List Piece) (i : Nat) (h : i < l.length),
      sumLens (l.eraseIdx i) + (l.get ⟨i, h⟩).length = sumLens l
  | p :: l, 0, _ => by simp [sumLens_cons, Nat.add_comm]
  | p :: l, i + 1, h => by
    simp only [List.eraseIdx_cons_succ, sumLens_cons, List.get_cons_succ]
    have := sumLens_eraseIdx l i (by simpa using h)
    omega

theorem sumLens_set :
    ∀ (l : List Piece) (i : Nat) (a : Piece) (h : i < l.length),
      sumLens (l.set i a) + (l.get ⟨i, h⟩).length = sumLens l + a.length
  | p :: l, 0, a, _ => by simp [sumLens_cons]; omega
  | p :: l, i + 1, a, h => by
    simp only [List.set_cons_succ, sumLens_cons, List.get_cons_succ]
    have := sumLens_set l i a (by simpa using h)
    omega

theorem insertIdx_eraseIdx_set :
    ∀ (l : List Piece) (i : Nat) (a : Piece), i < l.length →
      List.insertIdx i a (l.eraseIdx i) = l.set i a
  | p :: l, 0, a, _ => by simp
  | p :: l, i + 1, a, h => by
    simp only [List.eraseIdx_cons_succ, List.insertIdx_succ_cons, List.set_cons_succ]
    rw [insertIdx_eraseIdx_set l i a (by simpa using h)]

theorem insertIdx_eraseIdx_get :
    ∀ (l : List Piece) (i : Nat) (h : i < l.length),
      List.insertIdx i (l.get ⟨i, h⟩) (l.eraseIdx i) = l
  | p :: l, 0, _ => by simp
  | p :: l, i + 1, h => by
    simp only [List.eraseIdx_cons_succ, List.insertIdx_succ_cons, List.get_cons_succ]
    rw [insertIdx_eraseIdx_get l i (by simpa using h)]

theorem length_eraseIdx_lt :
    ∀ (l : List Piece) (i : Nat), i < l.length → (l.eraseIdx i).length + 1 = l.length
  | p :: l, 0, _ => by simp
  | p :: l, i + 1, h => by
    simp only [List.eraseIdx_cons_succ, List.length_cons]
    rw [length_eraseIdx_lt l i (by simpa using h)]

theorem getD_set_lt {α : Type} [Inhabited α] :
    ∀ (l : List α) (i : Nat) (a : α) (k : Nat), k < i →
      (l.set i a).getD k default = l.getD k default
  | [], _, _, _, _ => by simp
  | p :: l, i + 1, a, 0, _ => by simp
  | p :: l, i + 1, a, k + 1, h => by
    simp only [List.set_cons_succ, List.getD_cons_succ]
    exact getD_set_lt l i a k (by omega)

theorem getD_eraseIdx_lt {α : Type} [Inhabited α] :
    ∀ (l : List α) (i : Nat) (k : Nat), k < i →
      (l.eraseIdx i).getD k default = l.getD k default
  | [], _, _, _ => by simp
  | p :: l, i + 1, 0, _ => by simp
  | p :: l, i + 1, k + 1, h => by
    simp only [List.eraseIdx_cons_succ, List.getD_cons_succ]
    exact getD_eraseIdx_lt l i k (by omega)

theorem getD_insertIdx_lt {α : Type} [Inhabited α] :
    ∀ (l : List α) (i : Nat) (a : α) (k : Nat), k < i →
      (List.insertIdx i a l).getD k default = l.getD k default
  | l, 0, a, k, h => by omega
  | [], i + 1, a, k, h => by simp
  | p :: l, i + 1, a, 0, _ => by simp
  | p :: l, i + 1, a, k + 1, h => by
    simp only [List.insertIdx_succ_cons, List.getD_cons_succ]
    exact getD_insertIdx_lt l i a k (by omega)

theorem getD_eq_get {α : Type} [Inhabited α] :
    ∀ (l : List α) (i : Nat) (h : i < l.length), l.getD i default = l.get ⟨i, h⟩
  | p :: l, 0, _ => by simp
  | p :: l, i + 1, h => by
    simp only [List.getD_cons_succ, List.get_cons_succ]
    exact getD_eq_get l i (by simpa using h)

theorem getD_mem {α : Type} [Inhabited α] (l : List α) (i : Nat) (h : i < l.length) :
    l.getD i default ∈ l := by
  rw [getD_eq_get l i h]
  exact List.get_mem l i h

/-! ### Exact replay of a commit's change list -/

/-- Forward application of one change, with the extra check that a Deletion
removes exactly the recorded piece.  Successful exact replay implies that
both the `hot_redo` forward replay and the `undo` reverse replay of the
same change list run without hitting any assertion. -/
def applyChangeExact (c : Change) (l : List Piece) : Option (List Piece) :=
  match c.typ with
  | ChangeType.deletion =>
    if h : c.pos < l.length then
      if l.get ⟨c.pos, h⟩ = c.piece then some (l.eraseIdx c.pos) else none
    else none
  | ChangeType.insertion =>
    if c.pos ≤ l.length then some (List.insertIdx c.pos c.piece l) else none

/-- Exact forward replay of a change list. -/
def exactReplay : List Change → List Piece → Option (List Piece)
  | [], l => some l
  | c :: cs, l =>
    match applyChangeExact c l with
    | none => none
    | some l' => exactReplay cs l'

theorem exactReplay_append :
    ∀ (xs ys : List Change) (l : List Piece),
      exactReplay (xs ++ ys) l =
        match exactReplay xs l with
        | none => none
        | some m => exactReplay ys m
  | [], ys, l => rfl
  | c :: xs, ys, l => by
    simp only [List.cons_append, exactReplay]
    cases applyChangeExact c l with
    | none => rfl
    | some m => exact exactReplay_append xs ys m

theorem replayBack_append (orig add : List Char) :
    ∀ (xs ys : List Change) (l : List Piece) (tl : Nat),
      replayBack orig add (xs ++ ys) l tl =
        match replayBack orig add xs l tl with
        | .ok r => replayBack orig add ys r.1 r.2
        | .error e => .error e
  | [], ys, l, tl => rfl
  | c :: xs, ys, l, tl => by
    simp only [List.cons_append, replayBack]
    by_cases hwf : c.piece.offset + c.piece.length ≤
        (match c.piece.source with
          | PieceSource.original => orig.length
          | PieceSource.addition => add.length)
    · simp only [if_pos hwf]
      cases htyp : c.typ with
      | deletion =>
        by_cases hp : c.pos ≤ l.length
        · simp only [if_pos hp]
          exact replayBack_append orig add xs ys _ _
        · simp only [if_neg hp]
      | insertion =>
        by_cases hp : c.pos < l.length
        · simp only [dif_pos hp]
          exact replayBack_append orig add xs ys _ _
        · simp only [dif_neg hp]
    · simp only [if_neg hwf]

theorem length_insertIdx_le {α : Type} (i : Nat) (a : α) (l : List α) (h : i ≤ l.length) :
    (List.insertIdx i a l).length = l.length + 1 :=
  List.length_insertIdx i l h

/-- One-step reverse replay: undoing a single exactly-replayed change from
its result state runs without assertion failures and restores the input
state, keeping the running length equal to the sum of the piece lengths. -/
theorem replayBack_single (orig add : List Char) (c : Change) (l l' : List Piece)
    (hwf : pieceWF orig add c.piece) (hx : applyChangeExact c l = some l') :
    replayBack orig add [c] l' (sumLens l') = .ok (l, sumLens l) := by
  obtain ⟨cpos, cpiece, ctyp⟩ := c
  simp only [pieceWF, srcLen] at hwf
  cases ctyp with
  | deletion =>
    simp only [applyChangeExact] at hx
    split at hx
    next h =>
      split at hx
      next heq =>
        have hl' : l' = l.eraseIdx cpos := by simpa using hx.symm
        subst hl'
        have hlen : (l.eraseIdx cpos).length + 1 = l.length := length_eraseIdx_lt l cpos h
        have hsum := sumLens_eraseIdx l cpos h
        rw [heq] at hsum
        simp only [replayBack, hwf, if_true]
        rw [if_pos (by omega : cpos ≤ (l.eraseIdx cpos).length)]
        rw [← heq, insertIdx_eraseIdx_get l cpos h]
        rw [heq, hsum]
      next => exact absurd hx (by simp)
    next => exact absurd hx (by simp)
  | insertion =>
    simp only [applyChangeExact] at hx
    split at hx
    next h =>
      have hl' : l' = List.insertIdx cpos cpiece l := by simpa using hx.symm
      subst hl'
      have hlen : (List.insertIdx cpos cpiece l).length = l.length + 1 :=
        length_insertIdx_le cpos cpiece l h
      have hpos : cpos < (List.insertIdx cpos cpiece l).length := by omega
      have hget : (List.insertIdx cpos cpiece l).get ⟨cpos, hpos⟩ = cpiece := by
        have := List.getElem_insertIdx_self l cpiece cpos h
        simpa [List.get_eq_getElem] using this
      have hsum := sumLens_insertIdx cpos cpiece l h
      simp only [replayBack, hwf, if_true]
      rw [dif_pos hpos, hget, List.eraseIdx_insertIdx cpos l]
      rw [show sumLens (List.insertIdx cpos cpiece l) - cpiece.length = sumLens l by omega]
    next => exact absurd hx (by simp)

/-- Reverse replay (the `undo` loop) of an exactly-replayed change list,
walked in reverse, restores the pre-replay piece sequence and the summed
length, and never hits an assertion. -/
theorem replayBack_exact (orig add : List Char) :
    ∀ (cs : List Change) (l l' : List Piece),
      (∀ c ∈ cs, pieceWF orig add c.piece) →
      exactReplay cs l = some l' →
      replayBack orig add cs.reverse l' (sumLens l') = .ok (l, sumLens l)
  | [], l, l', _, hx => by
    simp only [exactReplay, Option.some_inj] at hx
    subst hx
    rfl
  | c :: cs, l, l', hwf, hx => by
    simp only [exactReplay] at hx
    cases hstep : applyChangeExact c l with
    | none => rw [hstep] at hx; exact absurd hx (by simp)
    | some m =>
      rw [hstep] at hx
      have ih := replayBack_exact orig add cs m l' (fun d hd => hwf d (by simp [hd])) hx
      have hone := replayBack_single orig add c l m (hwf c (by simp)) hstep
      rw [List.reverse_cons, replayBack_append, ih]
      exact hone

/-- Forward replay (the `hot_redo` loop) of an exactly-replayable change
list succeeds and produces the exact-replay result, keeping the running
length equal to the sum of the piece lengths. -/
theorem replayFwd_exact (orig add : List Char) :
    ∀ (cs : List Change) (l l' : List Piece),
      (∀ c ∈ cs, pieceWF orig add c.piece) →
      exactReplay cs l = some l' →
      replayFwd orig add cs l (sumLens l) = .ok (l', sumLens l')
  | [], l, l', _, hx => by
    simp only [exactReplay, Option.some_inj] at hx
    subst hx
    rfl
  | c :: cs, l, l', hwf, hx => by
    simp only [exactReplay] at hx
    cases hstep : applyChangeExact c l with
    | none => rw [hstep] at hx; exact absurd hx (by simp)
    | some m =>
      rw [hstep] at hx
      have ih := replayFwd_exact orig add cs m l' (fun d hd => hwf d (by simp [hd])) hx
      have hwfc : c.piece.offset + c.piece.length ≤
          (match c.piece.source with
            | PieceSource.original => orig.length
            | PieceSource.addition => add.length) := by
        simpa [pieceWF, srcLen] using hwf c (by simp)
      obtain ⟨cpos, cpiece, ctyp⟩ := c
      simp only at hwfc
      cases ctyp with
      | deletion =>
        simp only [applyChangeExact] at hstep
        split at hstep
        next h =>
          split at hstep
          next heq =>
            have hm : m = l.eraseIdx cpos := by simpa using hstep.symm
            have hsum := sumLens_eraseIdx l cpos h
            rw [heq] at hsum
            simp only [replayFwd, hwfc, if_true]
            rw [dif_pos h, heq]
            rw [show sumLens l - cpiece.length = sumLens (l.eraseIdx cpos) by omega, ← hm]
            exact ih
          next => exact absurd hstep (by simp)
        next => exact absurd hstep (by simp)
      | insertion =>
        simp only [applyChangeExact] at hstep
        split at hstep
        next h =>
          have hm : m = List.insertIdx cpos cpiece l := by simpa using hstep.symm
          have hsum := sumLens_insertIdx cpos cpiece l h
          simp only [replayFwd, hwfc, if_true]
          rw [if_pos h]
          rw [show sumLens l + cpiece.length = sumLens (List.insertIdx cpos cpiece l) by omega,
            ← hm]
          exact ih
        next => exact absurd hstep (by simp)

/-! ### Per-operation analysis of `PieceTable::remove` -/

/-- Index targeted by a classified removal operation. -/
def opIdx : RemoveOp → Nat
  | RemoveOp.End idx _ => idx
  | RemoveOp.Full idx => idx
  | RemoveOp.Start idx _ => idx
  | RemoveOp.Slice idx _ => idx

/-- Piece sequence after applying one classified removal operation
(first component of `applyRemove`). -/
def removeStep (n : Nat) (l : List Piece) : RemoveOp → List Piece
  | RemoveOp.End idx len =>
    let old := l.getD idx default
    l.set idx ⟨old.source, old.offset, old.length - len⟩
  | RemoveOp.Full idx => l.eraseIdx idx
  | RemoveOp.Start idx len =>
    let old := l.getD idx default
    l.set idx ⟨old.source, old.offset + len, old.length - len⟩
  | RemoveOp.Slice idx offset =>
    let old := l.getD idx default
    List.insertIdx (idx + 1) ⟨old.source, offset + n, old.length - offset - n⟩
      (l.set idx ⟨old.source, old.offset, offset⟩)

/-- Changes recorded while applying one classified removal operation
(appended to the second component by `applyRemove`). -/
def removeChanges (n : Nat) (l : List Piece) : RemoveOp → List Change
  | RemoveOp.End idx len =>
    let old := l.getD idx default
    [⟨idx, old, ChangeType.deletion⟩,
     ⟨idx, ⟨old.source, old.offset, old.length - len⟩, ChangeType.insertion⟩]
  | RemoveOp.Full idx => [⟨idx, l.getD idx default, ChangeType.deletion⟩]
  | RemoveOp.Start idx len =>
    let old := l.getD idx default
    [⟨idx, old, ChangeType.deletion⟩,
     ⟨idx, ⟨old.source, old.offset + len, old.length - len⟩, ChangeType.insertion⟩]
  | RemoveOp.Slice idx offset =>
    let old := l.getD idx default
    [⟨idx, old, ChangeType.deletion⟩,
     ⟨idx, ⟨old.source, old.offset, offset⟩, ChangeType.insertion⟩,
     ⟨idx + 1, ⟨old.source, offset + n, old.length - offset - n⟩, ChangeType.insertion⟩]

theorem applyRemove_decomp (n : Nat) (st : List Piece × List Change) (op : RemoveOp) :
    applyRemove n st op = (removeStep n st.1 op, st.2 ++ removeChanges n st.1 op) := by
  cases op <;> rfl

/-- Side conditions the classification loop guarantees for each emitted
operation, stated against the scanned piece list. -/
def OpOK (n : Nat) (l : List Piece) : RemoveOp → Prop
  | RemoveOp.End idx len => idx < l.length ∧ 0 < len ∧ len < (l.getD idx default).length
  | RemoveOp.Full idx => idx < l.length
  | RemoveOp.Start idx len => idx < l.length ∧ 0 < len ∧ len < (l.getD idx default).length
  | RemoveOp.Slice idx offset =>
    idx < l.length ∧ 0 < offset ∧ offset + n < (l.getD idx default).length

/-- Number of document bytes one classified operation deletes. -/
def opContrib (n : Nat) (l : List Piece) : RemoveOp → Nat
  | RemoveOp.End _ len => len
  | RemoveOp.Full idx => (l.getD idx default).length
  | RemoveOp.Start _ len => len
  | RemoveOp.Slice _ _ => n

theorem opIdx_lt_of_opOK {n : Nat} {l : List Piece} {op : RemoveOp} (h : OpOK n l op) :
    opIdx op < l.length := by
  cases op with
  | End idx len => exact h.1
  | Full idx => exact h
  | Start idx len => exact h.1
  | Slice idx offset => exact h.1

theorem mem_of_mem_eraseIdx {α : Type} :
    ∀ (l : List α) (i : Nat) (a : α), a ∈ l.eraseIdx i → a ∈ l
  | [], _, _, h => by simp at h
  | p :: l, 0, a, h => by simp [List.eraseIdx_cons_zero] at h; simp [h]
  | p :: l, i + 1, a, h => by
    simp only [List.eraseIdx_cons_succ, List.mem_cons] at h
    rcases h with h | h
    · simp [h]
    · exact List.mem_cons_of_mem p (mem_of_mem_eraseIdx l i a h)

theorem mem_of_mem_set {α : Type} :
    ∀ (l : List α) (i : Nat) (b a : α), a ∈ l.set i b → a = b ∨ a ∈ l
  | [], _, _, _, h => by simp at h
  | p :: l, 0, b, a, h => by
    simp only [List.set_cons_zero, List.mem_cons] at h
    rcases h with h | h
    · exact Or.inl h
    · exact Or.inr (List.mem_cons_of_mem p h)
  | p :: l, i + 1, b, a, h => by
    simp only [List.set_cons_succ, List.mem_cons] at h
    rcases h with h | h
    · exact Or.inr (by simp [h])
    · rcases mem_of_mem_set l i b a h with h | h
      · exact Or.inl h
      · exact Or.inr (List.mem_cons_of_mem p h)

theorem mem_of_mem_insertIdx {α : Type} :
    ∀ (l : List α) (i : Nat) (b a : α), a ∈ List.insertIdx i b l → a = b ∨ a ∈ l
  | l, 0, b, a, h => by
    simp only [List.insertIdx_zero, List.mem_cons] at h
    exact h
  | [], i + 1, b, a, h => by simp [List.insertIdx_succ_nil] at h
  | p :: l, i + 1, b, a, h => by
    simp only [List.insertIdx_succ_cons, List.mem_cons] at h
    rcases h with h | h
    · exact Or.inr (by simp [h])
    · rcases mem_of_mem_insertIdx l i b a h with h | h
      · exact Or.inl h
      · exact Or.inr (List.mem_cons_of_mem p h)

theorem removeStep_exact (n : Nat) (l : List Piece) (op : RemoveOp)
    (h : opIdx op < l.length) :
    exactReplay (removeChanges n l op) l = some (removeStep n l op) := by
  cases op with
  | End idx len =>
    simp only [opIdx] at h
    have hget := (getD_eq_get l idx h).symm
    have hlen := length_eraseIdx_lt l idx h
    have h2 : idx ≤ (l.eraseIdx idx).length := by omega
    simp [removeChanges, removeStep, exactReplay, applyChangeExact, h, h2, hget,
      insertIdx_eraseIdx_set l idx _ h]
  | Full idx =>
    simp only [opIdx] at h
    have hget := (getD_eq_get l idx h).symm
    simp [removeChanges, removeStep, exactReplay, applyChangeExact, h, hget]
  | Start idx len =>
    simp only [opIdx] at h
    have hget := (getD_eq_get l idx h).symm
    have hlen := length_eraseIdx_lt l idx h
    have h2 : idx ≤ (l.eraseIdx idx).length := by omega
    simp [removeChanges, removeStep, exactReplay, applyChangeExact, h, h2, hget,
      insertIdx_eraseIdx_set l idx _ h]
  | Slice idx offset =>
    simp only [opIdx] at h
    have hget := (getD_eq_get l idx h).symm
    have hlen := length_eraseIdx_lt l idx h
    have h2 : idx ≤ (l.eraseIdx idx).length := by omega
    have h3 : idx + 1 ≤ l.length := by omega
    simp [removeChanges, removeStep, exactReplay, applyChangeExact, h, h2, h3, hget,
      insertIdx_eraseIdx_set l idx _ h]

theorem opIdx_le_removeStep_length (n : Nat) (l : List Piece) (op : RemoveOp)
    (h : opIdx op < l.length) :
    opIdx op ≤ (removeStep n l op).length := by
  cases op with
  | End idx len => simp only [removeStep, List.length_set, opIdx] at h ⊢; omega
  | Full idx =>
    simp only [opIdx] at h ⊢
    have := length_eraseIdx_lt l idx h
    simp only [removeStep]
    omega
  | Start idx len => simp only [removeStep, List.length_set, opIdx] at h ⊢; omega
  | Slice idx offset =>
    simp only [opIdx] at h ⊢
    have hs : (l.set idx ⟨(l.getD idx default).source, (l.getD idx default).offset,
        offset⟩).length = l.length := by simp
    simp only [removeStep]
    rw [length_insertIdx_le _ _ _ (by omega)]
    omega

theorem removeStep_getD_lt (n : Nat) (l : List Piece) (op : RemoveOp) (k : Nat)
    (h : opIdx op < l.length) (hk : k < opIdx op) :
    (removeStep n l op).getD k default = l.getD k default := by
  cases op with
  | End idx len => exact getD_set_lt l idx _ k hk
  | Full idx => exact getD_eraseIdx_lt l idx k hk
  | Start idx len => exact getD_set_lt l idx _ k hk
  | Slice idx offset =>
    simp only [opIdx] at h hk
    simp only [removeStep]
    rw [getD_insertIdx_lt _ (idx + 1) _ k (by omega)]
    exact getD_set_lt l idx _ k hk

theorem removeStep_sum (n : Nat) (l : List Piece) (op : RemoveOp)
    (h : OpOK n l op) :
    sumLens (removeStep n l op) + opContrib n l op = sumLens l := by
  cases op with
  | End idx len =>
    obtain ⟨hidx, hpos, hlt⟩ := h
    have hget := getD_eq_get l idx hidx
    have hs := sumLens_set l idx ⟨(l.getD idx default).source, (l.getD idx default).offset,
      (l.getD idx default).length - len⟩ hidx
    rw [← hget] at hs
    simp only [removeStep, opContrib]
    dsimp only at hs
    omega
  | Full idx =>
    have hget := getD_eq_get l idx h
    have hs := sumLens_eraseIdx l idx h
    rw [← hget] at hs
    simp only [removeStep, opContrib]
    omega
  | Start idx len =>
    obtain ⟨hidx, hpos, hlt⟩ := h
    have hget := getD_eq_get l idx hidx
    have hs := sumLens_set l idx ⟨(l.getD idx default).source, (l.getD idx default).offset + len,
      (l.getD idx default).length - len⟩ hidx
    rw [← hget] at hs
    simp only [removeStep, opContrib]
    dsimp only at hs
    omega
  | Slice idx offset =>
    obtain ⟨hidx, hpos, hlt⟩ := h
    have hget := getD_eq_get l idx hidx
    have hset := sumLens_set l idx ⟨(l.getD idx default).source, (l.getD idx default).offset,
      offset⟩ hidx
    rw [← hget] at hset
    have hins := sumLens_insertIdx (idx + 1)
      ⟨(l.getD idx default).source, offset + n, (l.getD idx default).length - offset - n⟩
      (l.set idx ⟨(l.getD idx default).source, (l.getD idx default).offset, offset⟩)
      (by simp only [List.length_set]; omega)
    simp only [removeStep, opContrib]
    dsimp only at hset hins
    omega

theorem srcLen_congr (orig add : List Char) (p q : Piece) (h : p.source = q.source) :
    srcLen orig add p = srcLen orig add q := by
  unfold srcLen
  rw [h]

theorem removeStep_wf (orig add : List Char) (n : Nat) (l : List Piece) (op : RemoveOp)
    (hok : OpOK n l op)
    (hwf : ∀ p ∈ l, pieceWF orig add p) (hpos : ∀ p ∈ l, 0 < p.length) :
    (∀ p ∈ removeStep n l op, pieceWF orig add p ∧ 0 < p.length) := by
  cases op with
  | End idx len =>
    obtain ⟨hidx, hp, hlt⟩ := hok
    have hold : l.getD idx default ∈ l := getD_mem l idx hidx
    have hwfold := hwf _ hold
    intro p hmem
    simp only [removeStep] at hmem
    rcases mem_of_mem_set l idx _ p hmem with rfl | hm
    · unfold pieceWF srcLen at hwfold ⊢
      dsimp only at hwfold ⊢
      exact ⟨by omega, by omega⟩
    · exact ⟨hwf p hm, hpos p hm⟩
  | Full idx =>
    intro p hmem
    have hm := mem_of_mem_eraseIdx l idx p (by simpa [removeStep] using hmem)
    exact ⟨hwf p hm, hpos p hm⟩
  | Start idx len =>
    obtain ⟨hidx, hp, hlt⟩ := hok
    have hold : l.getD idx default ∈ l := getD_mem l idx hidx
    have hwfold := hwf _ hold
    intro p hmem
    simp only [removeStep] at hmem
    rcases mem_of_mem_set l idx _ p hmem with rfl | hm
    · unfold pieceWF srcLen at hwfold ⊢
      dsimp only at hwfold ⊢
      exact ⟨by omega, by omega⟩
    · exact ⟨hwf p hm, hpos p hm⟩
  | Slice idx offset =>
    obtain ⟨hidx, hp, hlt⟩ := hok
    have hold : l.getD idx default ∈ l := getD_mem l idx hidx
    have hwfold := hwf _ hold
    intro p hmem
    simp only [removeStep] at hmem
    rcases mem_of_mem_insertIdx _ (idx + 1) _ p hmem with rfl | hm
    · unfold pieceWF srcLen at hwfold ⊢
      dsimp only at hwfold ⊢
      exact ⟨by omega, by omega⟩
    · rcases mem_of_mem_set l idx _ p hm with rfl | hm'
      · unfold pieceWF srcLen at hwfold ⊢
        dsimp only at hwfold ⊢
        exact ⟨by omega, by omega⟩
      · exact ⟨hwf p hm', hpos p hm'⟩

theorem removeChanges_wf (orig add : List Char) (n : Nat) (l : List Piece) (op : RemoveOp)
    (hok : OpOK n l op)
    (hwf : ∀ p ∈ l, pieceWF orig add p) :
    ∀ c ∈ removeChanges n l op, pieceWF orig add c.piece := by
  cases op with
  | End idx len =>
    obtain ⟨hidx, hp, hlt⟩ := hok
    have hwfold := hwf _ (getD_mem l idx hidx)
    intro c hmem
    simp only [removeChanges, List.mem_cons, List.mem_singleton] at hmem
    rcases hmem with rfl | rfl | h
    · exact hwfold
    · unfold pieceWF srcLen at hwfold ⊢
      dsimp only at hwfold ⊢
      omega
    · simp at h
  | Full idx =>
    have hwfold := hwf _ (getD_mem l idx hok)
    intro c hmem
    simp only [removeChanges, List.mem_singleton] at hmem
    subst hmem
    exact hwfold
  | Start idx len =>
    obtain ⟨hidx, hp, hlt⟩ := hok
    have hwfold := hwf _ (getD_mem l idx hidx)
    intro c hmem
    simp only [removeChanges, List.mem_cons, List.mem_singleton] at hmem
    rcases hmem with rfl | rfl | h
    · exact hwfold
    · unfold pieceWF srcLen at hwfold ⊢
      dsimp only at hwfold ⊢
      omega
    · simp at h
  | Slice idx offset =>
    obtain ⟨hidx, hp, hlt⟩ := hok
    have hwfold := hwf _ (getD_mem l idx hidx)
    intro c hmem
    simp only [removeChanges, List.mem_cons, List.mem_singleton] at hmem
    rcases hmem with rfl | rfl | rfl | h
    · exact hwfold
    · unfold pieceWF srcLen at hwfold ⊢
      dsimp only at hwfold ⊢
      omega
    · unfold pieceWF srcLen at hwfold ⊢
      dsimp only at hwfold ⊢
      omega
    · simp at h

/-- Deletion-before-insertion ordering inside one block of changes. -/
def blockOk (cs : List Change) : Prop :=
  List.Pairwise (fun a b => ¬(a.typ = ChangeType.insertion ∧ b.typ = ChangeType.deletion)) cs

theorem removeChanges_blockOk (n : Nat) (l : List Piece) (op : RemoveOp) :
    blockOk (removeChanges n l op) := by
  cases op <;> simp [blockOk, removeChanges]

theorem opOK_transfer {n : Nat} {l m : List Piece} {op : RemoveOp}
    (h : OpOK n l op) (hlen : opIdx op < m.length)
    (hagree : m.getD (opIdx op) default = l.getD (opIdx op) default) :
    OpOK n m op := by
  cases op with
  | End idx len =>
    simp only [opIdx] at hlen hagree
    obtain ⟨_, h2, h3⟩ := h
    exact ⟨hlen, h2, by rw [hagree]; exact h3⟩
  | Full idx => exact hlen
  | Start idx len =>
    simp only [opIdx] at hlen hagree
    obtain ⟨_, h2, h3⟩ := h
    exact ⟨hlen, h2, by rw [hagree]; exact h3⟩
  | Slice idx offset =>
    simp only [opIdx] at hlen hagree
    obtain ⟨_, h2, h3⟩ := h
    exact ⟨hlen, h2, by rw [hagree]; exact h3⟩

theorem opContrib_transfer {n : Nat} {l m : List Piece} {op : RemoveOp}
    (hagree : m.getD (opIdx op) default = l.getD (opIdx op) default) :
    opContrib n m op = opContrib n l op := by
  cases op with
  | End idx len => rfl
  | Full idx =>
    simp only [opIdx] at hagree
    simp only [opContrib]
    rw [hagree]
  | Start idx len => rfl
  | Slice idx offset => rfl

/-- Invariant of the reverse-order application loop of `PieceTable::remove`:
given in-bounds classified operations with strictly increasing indices, the
loop (a `foldr` of the operation list, since the code folds over the reversed
list) produces a piece sequence that is the exact replay of the recorded
changes, removes exactly the sum of the per-operation contributions, and
preserves wellformedness. -/
theorem applyRemoves_fold (orig add : List Char) (n : Nat) :
    ∀ (ops : List RemoveOp) (l : List Piece),
      (∀ op ∈ ops, OpOK n l op) →
      List.Pairwise (fun a b => opIdx a < opIdx b) ops →
      (∀ p ∈ l, pieceWF orig add p) → (∀ p ∈ l, 0 < p.length) →
      ∃ (newl : List Piece) (cs : List Change) (blocks : List (List Change)),
        (∀ cs0 : List Change,
          ops.foldr (fun op st => applyRemove n st op) (l, cs0) = (newl, cs0 ++ cs)) ∧
        exactReplay cs l = some newl ∧
        sumLens newl + (ops.map (opContrib n l)).sum = sumLens l ∧
        (∀ p ∈ newl, pieceWF orig add p ∧ 0 < p.length) ∧
        (∀ c ∈ cs, pieceWF orig add c.piece) ∧
        cs = blocks.flatten ∧ (∀ b ∈ blocks, blockOk b) ∧
        (∀ k, (∀ op ∈ ops, k < opIdx op) →
          newl.getD k default = l.getD k default ∧ (k < l.length → k < newl.length))
  | [], l, _, _, hwf, hpos => by
    refine ⟨l, [], [], ?_, rfl, by simp, fun p hp => ⟨hwf p hp, hpos p hp⟩, by simp, rfl,
      by simp, ?_⟩
    · intro cs0
      simp
    · intro k _
      exact ⟨rfl, fun h => h⟩
  | op :: rest, l, hok, hpair, hwf, hpos => by
    have hokr : ∀ o ∈ rest, OpOK n l o := fun o ho => hok o (by simp [ho])
    have hpairr := (List.pairwise_cons.mp hpair).2
    have hlt : ∀ o ∈ rest, opIdx op < opIdx o := (List.pairwise_cons.mp hpair).1
    obtain ⟨mid, csR, blocksR, hfold, hexact, hsum, hmidwf, hcswf, hblocks, hblockok, hagree⟩ :=
      applyRemoves_fold orig add n rest l hokr hpairr hwf hpos
    have hokop := hok op (by simp)
    have hidxl : opIdx op < l.length := opIdx_lt_of_opOK hokop
    obtain ⟨hagreeIdx, hlenIdx⟩ := hagree (opIdx op) hlt
    have hidxm : opIdx op < mid.length := hlenIdx hidxl
    have hokm : OpOK n mid op := opOK_transfer hokop hidxm hagreeIdx
    have hcontrib : opContrib n mid op = opContrib n l op := opContrib_transfer hagreeIdx
    refine ⟨removeStep n mid op, csR ++ removeChanges n mid op,
      blocksR ++ [removeChanges n mid op], ?_, ?_, ?_, ?_, ?_, ?_, ?_, ?_⟩
    · intro cs0
      rw [List.foldr_cons, hfold cs0, applyRemove_decomp]
      simp [List.append_assoc]
    · rw [exactReplay_append, hexact]
      exact removeStep_exact n mid op hidxm
    · have hstep := removeStep_sum n mid op hokm
      rw [hcontrib] at hstep
      simp only [List.map_cons, List.sum_cons]
      omega
    · exact removeStep_wf orig add n mid op hokm
        (fun p hp => (hmidwf p hp).1) (fun p hp => (hmidwf p hp).2)
    · intro c hc
      rcases List.mem_append.mp hc with hc | hc
      · exact hcswf c hc
      · exact removeChanges_wf orig add n mid op hokm (fun p hp => (hmidwf p hp).1) c hc
    · rw [hblocks, List.flatten_append]
      simp
    · intro b hb
      rcases List.mem_append.mp hb with hb | hb
      · exact hblockok b hb
      · rw [List.mem_singleton.mp hb]
        exact removeChanges_blockOk n mid op
    · intro k hk
      have hkop : k < opIdx op := hk op (by simp)
      have hkrest : ∀ o ∈ rest, k < opIdx o := fun o ho => hk o (by simp [ho])
      obtain ⟨ha, hl⟩ := hagree k hkrest
      refine ⟨?_, ?_⟩
      · rw [removeStep_getD_lt n mid op k hidxm hkop, ha]
      · intro hkl
        have := opIdx_le_removeStep_length n mid op hidxm
        omega

theorem getD_append_cons {α : Type} [Inhabited α] :
    ∀ (pre : List α) (p : α) (rest : List α),
      (pre ++ p :: rest).getD pre.length default = p
  | [], p, rest => by simp
  | q :: pre, p, rest => by
    simp only [List.cons_append, List.length_cons, List.getD_cons_succ]
    exact getD_append_cons pre p rest

/-- Everything the classification loop of `PieceTable::remove` guarantees:
each emitted operation is in bounds with the arithmetic side conditions of
`OpOK`, indices strictly increase, and the per-operation contributions sum
to the overlap of the removal window with the scanned suffix. -/
theorem classify_spec (pos n : Nat) (hn : 0 < n) :
    ∀ (l pre : List Piece), (∀ p ∈ l, 0 < p.length) →
      (∀ op ∈ classifyGo pos n l pre.length (sumLens pre),
        OpOK n (pre ++ l) op ∧ pre.length ≤ opIdx op) ∧
      List.Pairwise (fun a b => opIdx a < opIdx b)
        (classifyGo pos n l pre.length (sumLens pre)) ∧
      ((classifyGo pos n l pre.length (sumLens pre)).map (opContrib n (pre ++ l))).sum
        = min (pos + n) (sumLens pre + sumLens l) - max pos (sumLens pre)
  | [], pre, _ => by
    refine ⟨by simp [classifyGo], by simp [classifyGo], ?_⟩
    simp only [classifyGo, List.map_nil, List.sum_nil, sumLens_nil]
    omega
  | p :: rest, pre, hposl => by
    have hp : 0 < p.length := hposl p (by simp)
    have hrest : ∀ q ∈ rest, 0 < q.length := fun q hq => hposl q (by simp [hq])
    have hlen : (pre ++ [p]).length = pre.length + 1 := by simp
    have hsumpre : sumLens (pre ++ [p]) = sumLens pre + p.length := by
      simp [sumLens_append, sumLens]
    have happ : (pre ++ [p]) ++ rest = pre ++ p :: rest := by simp
    obtain ⟨ihok, ihpair, ihsum⟩ := classify_spec pos n hn rest (pre ++ [p]) hrest
    rw [hlen, hsumpre] at ihok ihpair ihsum
    rw [happ] at ihok ihsum
    have hgetp : (pre ++ p :: rest).getD pre.length default = p := getD_append_cons pre p rest
    have hlenfull : pre.length < (pre ++ p :: rest).length := by simp
    simp only [classifyGo, sumLens_cons]
    split
    next hbreak =>
      refine ⟨by simp, by simp, ?_⟩
      simp only [List.map_nil, List.sum_nil]
      omega
    next hbreak =>
      split
      next hEnd =>
        obtain ⟨h1, h2, h3⟩ := hEnd
        refine ⟨?_, ?_, ?_⟩
        · intro o ho
          rcases List.mem_cons.mp ho with rfl | ho
          · exact ⟨⟨hlenfull, by omega, by rw [hgetp]; omega⟩, Nat.le_refl _⟩
          · exact ⟨(ihok o ho).1, by have := (ihok o ho).2; omega⟩
        · exact List.pairwise_cons.mpr
            ⟨fun o ho => Nat.lt_of_lt_of_le (Nat.lt_succ_self _) (ihok o ho).2, ihpair⟩
        · simp only [List.map_cons, List.sum_cons, ihsum, opContrib]
          omega
      next hEnd =>
        split
        next hFull =>
          obtain ⟨h1, h2, h3⟩ := hFull
          refine ⟨?_, ?_, ?_⟩
          · intro o ho
            rcases List.mem_cons.mp ho with rfl | ho
            · exact ⟨hlenfull, Nat.le_refl _⟩
            · exact ⟨(ihok o ho).1, by have := (ihok o ho).2; omega⟩
          · exact List.pairwise_cons.mpr
              ⟨fun o ho => Nat.lt_of_lt_of_le (Nat.lt_succ_self _) (ihok o ho).2, ihpair⟩
          · simp only [List.map_cons, List.sum_cons, ihsum, opContrib, hgetp]
            omega
        next hFull =>
          split
          next hStart =>
            obtain ⟨h1, h2⟩ := hStart
            have hlp : sumLens pre + p.length > pos := by omega
            have hnotend : ¬ pos + n ≥ sumLens pre + p.length := fun hcon => h2 ⟨hcon, hlp⟩
            refine ⟨?_, ?_, ?_⟩
            · intro o ho
              rcases List.mem_cons.mp ho with rfl | ho
              · exact ⟨⟨hlenfull, by omega, by rw [hgetp]; omega⟩, Nat.le_refl _⟩
              · exact ⟨(ihok o ho).1, by have := (ihok o ho).2; omega⟩
            · exact List.pairwise_cons.mpr
                ⟨fun o ho => Nat.lt_of_lt_of_le (Nat.lt_succ_self _) (ihok o ho).2, ihpair⟩
            · simp only [List.map_cons, List.sum_cons, ihsum, opContrib]
              omega
          next hStart =>
            split
            next hSlice =>
              obtain ⟨h1, h2⟩ := hSlice
              refine ⟨?_, ?_, ?_⟩
              · intro o ho
                rcases List.mem_cons.mp ho with rfl | ho
                · exact ⟨⟨hlenfull, by omega, by rw [hgetp]; omega⟩, Nat.le_refl _⟩
                · exact ⟨(ihok o ho).1, by have := (ihok o ho).2; omega⟩
              · exact List.pairwise_cons.mpr
                  ⟨fun o ho => Nat.lt_of_lt_of_le (Nat.lt_succ_self _) (ihok o ho).2, ihpair⟩
              · simp only [List.map_cons, List.sum_cons, ihsum, opContrib]
                omega
            next hSlice =>
              have hskip : sumLens pre + p.length ≤ pos := by
                by_contra hcon
                push_neg at hcon
                by_cases hps : pos ≤ sumLens pre
                · by_cases hpe : pos + n ≥ sumLens pre + p.length
                  · exact hFull ⟨hps, hpe, by omega⟩
                  · exact hStart ⟨hps, fun hc => hpe hc.1⟩
                · by_cases hpe : pos + n < sumLens pre + p.length
                  · exact hSlice ⟨by omega, hpe⟩
                  · exact hEnd ⟨by omega, by omega, by omega⟩
              refine ⟨?_, ihpair, ?_⟩
              · intro o ho
                exact ⟨(ihok o ho).1, by have := (ihok o ho).2; omega⟩
              · rw [ihsum]
                omega

theorem pieceWF_mono (orig add ext : List Char) (p : Piece) (h : pieceWF orig add p) :
    pieceWF orig (add ++ ext) p := by
  unfold pieceWF srcLen at h ⊢
  cases hsrc : p.source <;> rw [hsrc] at h <;> simp_all <;> omega

theorem except_map_ok {α β : Type} (x : Except Err α) (f : α → β) (y : β)
    (h : x.map f = .ok y) : ∃ a, x = .ok a ∧ y = f a := by
  cases x with
  | ok a => exact ⟨a, rfl, by simpa [Except.map] using h.symm⟩
  | error e => simp [Except.map] at h

theorem isEmpty_false_of_ne {α : Type} (l : List α) (h : l ≠ []) : l.isEmpty = false := by
  cases l with
  | nil => exact absurd rfl h
  | cons a as => rfl

theorem History.save_ok (h : History) (c : Commit) (hne : h.changes ≠ [])
    (hh : h.head < h.changes.length) :
    h.save c = .ok
      { changes :=
          (h.changes.set h.head
            { h.changes.get ⟨h.head, hh⟩ with
              next := (h.changes.get ⟨h.head, hh⟩).next ++ [h.changes.length] })
          ++ [{ previous := some h.head, next := [], hot_path := none, commit := c }],
        head := h.changes.length } := by
  unfold History.save
  rw [isEmpty_false_of_ne h.changes hne]
  simp only [Bool.false_eq_true, if_false, dif_pos hh]

/-- Specification of the insert scan loop: for an in-range position it finds
the index of the containing piece and the in-piece offset. -/
theorem insertScan_spec :
    ∀ (l : List Piece) (i len pos : Nat), len ≤ pos → pos < len + sumLens l →
      ∃ j, ∃ hj : j < l.length,
        insertScan l i len pos = (i + j, pos - (len + sumLens (l.take j))) ∧
        len + sumLens (l.take j) ≤ pos ∧
        pos - (len + sumLens (l.take j)) < (l.get ⟨j, hj⟩).length
  | [], i, len, pos, hle, hlt => by
    simp only [sumLens_nil] at hlt
    omega
  | p :: rest, i, len, pos, hle, hlt => by
    by_cases hc : len + p.length ≤ pos
    · have hlt' : pos < (len + p.length) + sumLens rest := by
        simp only [sumLens_cons] at hlt
        omega
      obtain ⟨j, hj, heq, hle', hltp⟩ := insertScan_spec rest (i + 1) (len + p.length) pos hc hlt'
      refine ⟨j + 1, by simpa using Nat.succ_lt_succ hj, ?_, ?_, ?_⟩
      · simp only [insertScan, if_pos hc, heq, List.take_succ_cons, sumLens_cons,
          Prod.mk.injEq]
        constructor
        · omega
        · congr 1
          omega
      · simp only [List.take_succ_cons, sumLens_cons]
        omega
      · simp only [List.take_succ_cons, sumLens_cons, List.get_cons_succ]
        have : len + (p.length + sumLens (rest.take j)) =
            len + p.length + sumLens (rest.take j) := by omega
        rw [this]
        exact hltp
    · refine ⟨0, by simp, ?_, by simpa using hle, ?_⟩
      · simp [insertScan, hc, sumLens_nil]
      · show pos - (len + sumLens []) < p.length
        simp only [sumLens_nil]
        omega

/-- Everything a successful `remove` call guarantees, relating the new state
and the saved commit to the old state. -/
theorem remove_shape (t t' : PieceTable) (pos n : Nat)
    (hsum : t.total_length = sumLens t.pieces)
    (hwf : ∀ p ∈ t.pieces, pieceWF t.original t.addition p)
    (hpos : ∀ p ∈ t.pieces, 0 < p.length)
    (hok : t.remove pos n = .ok t') :
    ∃ c : Commit,
      exactReplay c.changes t.pieces = some t'.pieces ∧
      t.history.save c = .ok t'.history ∧
      t'.original = t.original ∧
      t'.addition = t.addition ∧
      t'.total_length = sumLens t'.pieces ∧
      sumLens t'.pieces + n = sumLens t.pieces ∧
      pos + n ≤ t.total_length ∧ n ≠ 0 ∧
      (∀ p ∈ t'.pieces, pieceWF t'.original t'.addition p ∧ 0 < p.length) ∧
      (∀ ch ∈ c.changes, pieceWF t'.original t'.addition ch.piece) ∧
      (∃ bs : List (List Change), c.changes = bs.flatten ∧ ∀ b ∈ bs, blockOk b) := by
  by_cases h1 : pos + n > t.total_length
  · simp only [PieceTable.remove, if_pos h1] at hok
    exact absurd hok (by simp)
  by_cases h2 : n = 0
  · simp only [PieceTable.remove, if_neg h1, if_pos h2] at hok
    exact absurd hok (by simp)
  simp only [PieceTable.remove, if_neg h1, if_neg h2] at hok
  obtain ⟨h', hsave, ht'⟩ := except_map_ok _ _ _ hok
  have hspec := classify_spec pos n (Nat.pos_of_ne_zero h2) t.pieces [] hpos
  simp only [List.length_nil, sumLens_nil, List.nil_append] at hspec
  obtain ⟨hops, hpair, hcontrib⟩ := hspec
  obtain ⟨newl, cs, blocks, hfold, hexact, hsumf, hnewwf, hcswf, hbl, hblok, _⟩ :=
    applyRemoves_fold t.original t.addition n (classifyGo pos n t.pieces 0 0) t.pieces
      (fun op ho => (hops op ho).1) hpair hwf hpos
  have hfoldl : (classifyGo pos n t.pieces 0 0).reverse.foldl (applyRemove n) (t.pieces, [])
      = (newl, cs) := by
    rw [List.foldl_reverse]
    simpa using hfold []
  rw [hfoldl] at hsave ht'
  have hn : sumLens newl + n = sumLens t.pieces := by
    have : ((classifyGo pos n t.pieces 0 0).map (opContrib n t.pieces)).sum = n := by
      rw [hcontrib]
      omega
    omega
  refine ⟨⟨cs⟩, ?_, ?_, ?_, ?_, ?_, ?_, by omega, h2, ?_, ?_, ⟨blocks, hbl, hblok⟩⟩
  · rw [ht']
    exact hexact
  · rw [ht']
    exact hsave
  · rw [ht']
  · rw [ht']
  · rw [ht', hsum]
    simp only
    omega
  · rw [ht']
    exact hn
  · rw [ht']
    exact hnewwf
  · rw [ht']
    exact hcswf

theorem blocks_single (cs : List Change) (h : blockOk cs) :
    ∃ bs : List (List Change), cs = bs.flatten ∧ ∀ b ∈ bs, blockOk b :=
  ⟨[cs], by simp, by simpa using h⟩

theorem insert_single_exact (l : List Piece) (idx : Nat) (piece : Piece) (h : idx ≤ l.length) :
    exactReplay [⟨idx, piece, ChangeType.insertion⟩] l = some (List.insertIdx idx piece l) := by
  simp [exactReplay, applyChangeExact, h]

theorem insert_split_exact (l : List Piece) (idx : Nat) (old shrunk piece trailing : Piece)
    (hj : idx < l.length) (hold : l.getD idx default = old) :
    exactReplay [⟨idx, old, ChangeType.deletion⟩, ⟨idx, shrunk, ChangeType.insertion⟩,
      ⟨idx + 1, piece, ChangeType.insertion⟩, ⟨idx + 2, trailing, ChangeType.insertion⟩] l
      = some (List.insertIdx (idx + 2) trailing
          (List.insertIdx (idx + 1) piece (l.set idx shrunk))) := by
  have hget : l.get ⟨idx, hj⟩ = old := by rw [← getD_eq_get l idx hj, hold]
  have hlen := length_eraseIdx_lt l idx hj
  have h2 : idx ≤ (l.eraseIdx idx).length := by omega
  have h4 : idx + 1 ≤ l.length := hj
  have h5 : idx + 2 ≤ l.length + 1 := by omega
  have hget2 : l[idx] = old := by
    simpa using hget
  have hsetlen : (l.set idx shrunk).length = l.length := by simp
  have hinslen : (List.insertIdx (idx + 1) piece (l.set idx shrunk)).length = l.length + 1 := by
    rw [length_insertIdx_le _ _ _ (by omega), hsetlen]
  simp [exactReplay, applyChangeExact, hj, h2, hget, hget2,
    insertIdx_eraseIdx_set l idx _ hj, hsetlen, hinslen, h4, h5]

/-- Everything a successful `insert` call guarantees. -/
theorem insert_shape (t t' : PieceTable) (pos : Nat) (s : List Char)
    (hsum : t.total_length = sumLens t.pieces)
    (hwf : ∀ p ∈ t.pieces, pieceWF t.original t.addition p)
    (hpos : ∀ p ∈ t.pieces, 0 < p.length)
    (hok : t.insert pos s = .ok t') :
    ∃ c : Commit,
      exactReplay c.changes t.pieces = some t'.pieces ∧
      t.history.save c = .ok t'.history ∧
      t'.original = t.original ∧
      t'.addition = t.addition ++ s ∧
      t'.total_length = sumLens t'.pieces ∧
      sumLens t'.pieces = sumLens t.pieces + s.length ∧
      pos ≤ t.total_length ∧ s ≠ [] ∧
      (∀ p ∈ t'.pieces, pieceWF t'.original t'.addition p ∧ 0 < p.length) ∧
      (∀ ch ∈ c.changes, pieceWF t'.original t'.addition ch.piece) ∧
      (∃ bs : List (List Change), c.changes = bs.flatten ∧ ∀ b ∈ bs, blockOk b) := by
  by_cases h1 : pos > t.total_length
  · simp only [PieceTable.insert, if_pos h1] at hok
    exact absurd hok (by simp)
  by_cases h2 : s.isEmpty
  · simp only [PieceTable.insert, if_neg h1, if_pos h2] at hok
    exact absurd hok (by simp)
  have hsne : s ≠ [] := by
    intro h
    subst h
    simp at h2
  have hslen : 0 < s.length := List.length_pos.mpr hsne
  have haddlen : t.addition.length + s.length ≤ (t.addition ++ s).length := by simp
  have hnew_wf : pieceWF t.original (t.addition ++ s)
      ⟨PieceSource.addition, t.addition.length, s.length⟩ := by
    unfold pieceWF srcLen
    simpa using haddlen
  simp only [PieceTable.insert, if_neg h1, if_neg h2] at hok
  by_cases hsp : pos = 0 ∨ pos = t.total_length
  · simp only [if_pos hsp] at hok
    obtain ⟨h', hsave, ht'⟩ := except_map_ok _ _ _ hok
    have hidx : (if pos = 0 then 0 else t.pieces.length) ≤ t.pieces.length := by
      by_cases hp0 : pos = 0 <;> simp [hp0]
    refine ⟨⟨[⟨if pos = 0 then 0 else t.pieces.length,
        ⟨PieceSource.addition, t.addition.length, s.length⟩, ChangeType.insertion⟩]⟩,
      ?_, ?_, ?_, ?_, ?_, ?_, by omega, hsne, ?_, ?_, ?_⟩
    · rw [ht']
      exact insert_single_exact t.pieces _ _ hidx
    · rw [ht']
      exact hsave
    · rw [ht']
    · rw [ht']
    · rw [ht']
      simp only
      rw [sumLens_insertIdx _ _ _ hidx, hsum]
      dsimp only
      omega
    · rw [ht']
      simp only
      rw [sumLens_insertIdx _ _ _ hidx]
      dsimp only
      omega
    · rw [ht']
      simp only
      intro p hp
      rcases mem_of_mem_insertIdx _ _ _ p hp with rfl | hm
      · exact ⟨hnew_wf, hslen⟩
      · exact ⟨pieceWF_mono _ _ _ _ (hwf p hm), hpos p hm⟩
    · rw [ht']
      intro ch hch
      simp only [List.mem_singleton] at hch
      subst hch
      exact hnew_wf
    · exact ⟨[[⟨if pos = 0 then 0 else t.pieces.length,
        ⟨PieceSource.addition, t.addition.length, s.length⟩, ChangeType.insertion⟩]],
        by simp, by simp [blockOk]⟩
  · simp only [if_neg hsp] at hok
    push_neg at hsp
    have hpos0 : 0 < pos := Nat.pos_of_ne_zero hsp.1
    have hplt : pos < sumLens t.pieces := by
      rw [← hsum]
      omega
    obtain ⟨j, hj, heq, hle', hlt'⟩ :=
      insertScan_spec t.pieces 0 0 pos (by omega) (by omega)
    simp only [Nat.zero_add] at heq hle' hlt'
    rw [heq] at hok
    by_cases hlp : pos - sumLens (t.pieces.take j) = 0
    · simp only [hlp, if_pos rfl] at hok
      obtain ⟨h', hsave, ht'⟩ := except_map_ok _ _ _ hok
      have hidx : j ≤ t.pieces.length := by omega
      refine ⟨⟨[⟨j, ⟨PieceSource.addition, t.addition.length, s.length⟩,
          ChangeType.insertion⟩]⟩, ?_, ?_, ?_, ?_, ?_, ?_, by omega, hsne, ?_, ?_, ?_⟩
      · rw [ht']
        exact insert_single_exact t.pieces _ _ hidx
      · rw [ht']
        exact hsave
      · rw [ht']
      · rw [ht']
      · rw [ht']
        simp only
        rw [sumLens_insertIdx _ _ _ hidx, hsum]
        dsimp only
        omega
      · rw [ht']
        simp only
        rw [sumLens_insertIdx _ _ _ hidx]
        dsimp only
        omega
      · rw [ht']
        simp only
        intro p hp
        rcases mem_of_mem_insertIdx _ _ _ p hp with rfl | hm
        · exact ⟨hnew_wf, hslen⟩
        · exact ⟨pieceWF_mono _ _ _ _ (hwf p hm), hpos p hm⟩
      · rw [ht']
        intro ch hch
        simp only [List.mem_singleton] at hch
        subst hch
        exact hnew_wf
      · exact ⟨[[⟨j, ⟨PieceSource.addition, t.addition.length, s.length⟩,
          ChangeType.insertion⟩]], by simp, by simp [blockOk]⟩
    · simp only [if_neg hlp] at hok
      obtain ⟨h', hsave, ht'⟩ := except_map_ok _ _ _ hok
      have hgetj := getD_eq_get t.pieces j hj
      have holdlen : pos - sumLens (t.pieces.take j) < (t.pieces.getD j default).length := by
        rw [hgetj]
        exact hlt'
      have holdwf : pieceWF t.original t.addition (t.pieces.getD j default) :=
        hwf _ (getD_mem t.pieces j hj)
      have hklen : (t.pieces.getD j default).length = (t.pieces.get ⟨j, hj⟩).length := by
        rw [hgetj]
      have hsetlen : ∀ a : Piece, (t.pieces.set j a).length = t.pieces.length := by
        intro a
        simp
      have hsums : sumLens (t.pieces.set j
          ⟨(t.pieces.getD j default).source, (t.pieces.getD j default).offset,
            pos - sumLens (t.pieces.take j)⟩) + (t.pieces.getD j default).length
          = sumLens t.pieces + (pos - sumLens (t.pieces.take j)) := by
        have := sumLens_set t.pieces j ⟨(t.pieces.getD j default).source,
          (t.pieces.getD j default).offset, pos - sumLens (t.pieces.take j)⟩ hj
        rw [← hgetj] at this
        simpa using this
      refine ⟨⟨[⟨j, t.pieces.getD j default, ChangeType.deletion⟩,
        ⟨j, ⟨(t.pieces.getD j default).source, (t.pieces.getD j default).offset,
          pos - sumLens (t.pieces.take j)⟩, ChangeType.insertion⟩,
        ⟨j + 1, ⟨PieceSource.addition, t.addition.length, s.length⟩, ChangeType.insertion⟩,
        ⟨j + 2, ⟨(t.pieces.getD j default).source,
          (t.pieces.getD j default).offset + (pos - sumLens (t.pieces.take j)),
          (t.pieces.getD j default).length - (pos - sumLens (t.pieces.take j))⟩,
          ChangeType.insertion⟩]⟩, ?_, ?_, ?_, ?_, ?_, ?_, by omega, hsne, ?_, ?_, ?_⟩
      · rw [ht']
        exact insert_split_exact t.pieces j (t.pieces.getD j default)
          ⟨(t.pieces.getD j default).source, (t.pieces.getD j default).offset,
            pos - sumLens (t.pieces.take j)⟩
          ⟨PieceSource.addition, t.addition.length, s.length⟩
          ⟨(t.pieces.getD j default).source,
            (t.pieces.getD j default).offset + (pos - sumLens (t.pieces.take j)),
            (t.pieces.getD j default).length - (pos - sumLens (t.pieces.take j))⟩ hj rfl
      · rw [ht']
        exact hsave
      · rw [ht']
      · rw [ht']
      · rw [ht']
        simp only
        rw [sumLens_insertIdx _ _ _ (by
            rw [length_insertIdx_le _ _ _ (by simp only [List.length_set]; omega)]
            simp only [List.length_set]
            omega),
          sumLens_insertIdx _ _ _ (by simp only [List.length_set]; omega)]
        dsimp only
        rw [hsum]
        omega
      · rw [ht']
        simp only
        rw [sumLens_insertIdx _ _ _ (by
            rw [length_insertIdx_le _ _ _ (by simp only [List.length_set]; omega)]
            simp only [List.length_set]
            omega),
          sumLens_insertIdx _ _ _ (by simp only [List.length_set]; omega)]
        dsimp only
        omega
      · rw [ht']
        simp only
        intro p hp
        rcases mem_of_mem_insertIdx _ _ _ p hp with rfl | hm
        · constructor
          · have := pieceWF_mono t.original t.addition s _ holdwf
            unfold pieceWF srcLen at this ⊢
            dsimp only at this ⊢
            omega
          · dsimp only
            omega
        · rcases mem_of_mem_insertIdx _ _ _ p hm with rfl | hm'
          · exact ⟨hnew_wf, hslen⟩
          · rcases mem_of_mem_set _ _ _ p hm' with rfl | hm''
            · constructor
              · have := pieceWF_mono t.original t.addition s _ holdwf
                unfold pieceWF srcLen at this ⊢
                dsimp only at this ⊢
                omega
              · show 0 < pos - sumLens (List.take j t.pieces)
                omega
            · exact ⟨pieceWF_mono _ _ _ _ (hwf p hm''), hpos p hm''⟩
      · rw [ht']
        intro ch hch
        simp only [List.mem_cons, List.not_mem_nil, or_false] at hch
        rcases hch with rfl | rfl | rfl | rfl
        · exact pieceWF_mono _ _ _ _ holdwf
        · have := pieceWF_mono t.original t.addition s _ holdwf
          unfold pieceWF srcLen at this ⊢
          dsimp only at this ⊢
          omega
        · exact hnew_wf
        · have := pieceWF_mono t.original t.addition s _ holdwf
          unfold pieceWF srcLen at this ⊢
          dsimp only at this ⊢
          omega
      · exact blocks_single _ (by simp [blockOk])

instance : Inhabited Entry :=
  ⟨{ previous := none, next := [], hot_path := none, commit := ⟨[]⟩ }⟩

theorem getD_set_eq {α : Type} [Inhabited α] :
    ∀ (l : List α) (i : Nat) (a : α), i < l.length → (l.set i a).getD i default = a
  | p :: l, 0, a, _ => by simp
  | p :: l, i + 1, a, h => by
    simp only [List.set_cons_succ, List.getD_cons_succ]
    exact getD_set_eq l i a (by simpa using h)
  | [], _, _, h => by simp at h

theorem getD_set_ne {α : Type} [Inhabited α] :
    ∀ (l : List α) (i : Nat) (a : α) (k : Nat), k ≠ i →
      (l.set i a).getD k default = l.getD k default
  | [], _, _, _, _ => by simp
  | p :: l, 0, a, 0, h => by omega
  | p :: l, 0, a, k + 1, _ => by simp
  | p :: l, i + 1, a, 0, _ => by simp
  | p :: l, i + 1, a, k + 1, h => by
    simp only [List.set_cons_succ, List.getD_cons_succ]
    exact getD_set_ne l i a k (by omega)

theorem getD_append_lt {α : Type} [Inhabited α] :
    ∀ (A B : List α) (i : Nat), i < A.length → (A ++ B).getD i default = A.getD i default
  | [], _, _, h => by simp at h
  | a :: A, B, 0, _ => by simp
  | a :: A, B, i + 1, h => by
    simp only [List.cons_append, List.getD_cons_succ]
    exact getD_append_lt A B i (by simpa using h)

/-- Entry of the history arena at an index. -/
def histAt (t : PieceTable) (i : Nat) : Entry :=
  t.history.changes.getD i default

/-- Global invariant of every buffer reachable by public operations. -/
structure WF (t : PieceTable) : Prop where
  sum_eq : t.total_length = sumLens t.pieces
  pieces_wf : ∀ p ∈ t.pieces, pieceWF t.original t.addition p
  pieces_pos : ∀ p ∈ t.pieces, 0 < p.length
  hist_ne : t.history.changes ≠ []
  head_lt : t.history.head < t.history.changes.length
  prev_lt : ∀ i, i < t.history.changes.length →
    ∀ p, (histAt t i).previous = some p → p < i
  prev_next : ∀ i, i < t.history.changes.length →
    ∀ p, (histAt t i).previous = some p → i ∈ (histAt t p).next
  next_prev : ∀ i, i < t.history.changes.length →
    ∀ j, j ∈ (histAt t i).next →
      j < t.history.changes.length ∧ (histAt t j).previous = some i
  hot_next : ∀ i, i < t.history.changes.length →
    ∀ j, (histAt t i).hot_path = some j → j ∈ (histAt t i).next
  commit_wf : ∀ i, i < t.history.changes.length →
    ∀ c ∈ (histAt t i).commit.changes, pieceWF t.original t.addition c.piece
  states : ∃ S : Nat → List Piece,
    S t.history.head = t.pieces ∧
    (∀ i, i < t.history.changes.length →
      ∀ p ∈ S i, pieceWF t.original t.addition p ∧ 0 < p.length) ∧
    (∀ i, i < t.history.changes.length →
      ∀ p, (histAt t i).previous = some p →
        exactReplay (histAt t i).commit.changes (S p) = some (S i))

/-- The initial buffer satisfies the invariant. -/
theorem fromString_wf (s : List Char) : WF (PieceTable.fromString s) := by
  have hpieces : ∀ p ∈ (PieceTable.fromString s).pieces,
      pieceWF s [] p ∧ 0 < p.length := by
    intro p hp
    simp only [PieceTable.fromString] at hp
    by_cases he : s.isEmpty
    · rw [if_pos he] at hp
      simp at hp
    · rw [if_neg he] at hp
      simp only [List.mem_singleton] at hp
      subst hp
      refine ⟨by unfold pieceWF srcLen; simp, ?_⟩
      simp only
      cases s with
      | nil => simp at he
      | cons a as => simp
  refine ⟨?_, fun p hp => (hpieces p hp).1, fun p hp => (hpieces p hp).2,
    by simp [PieceTable.fromString, History.new], by simp [PieceTable.fromString, History.new],
    ?_, ?_, ?_, ?_, ?_, ?_⟩
  · simp only [PieceTable.fromString]
    by_cases he : s.isEmpty
    · rw [if_pos he]
      cases s with
      | nil => simp [sumLens]
      | cons a as => simp at he
    · rw [if_neg he]
      simp [sumLens]
  · intro i hi p hp
    simp only [PieceTable.fromString, History.new, List.length_singleton] at hi
    interval_cases i
    simp [histAt, PieceTable.fromString, History.new] at hp
  · intro i hi p hp
    simp only [PieceTable.fromString, History.new, List.length_singleton] at hi
    interval_cases i
    simp [histAt, PieceTable.fromString, History.new] at hp
  · intro i hi j hj
    simp only [PieceTable.fromString, History.new, List.length_singleton] at hi
    interval_cases i
    simp [histAt, PieceTable.fromString, History.new] at hj
  · intro i hi j hj
    simp only [PieceTable.fromString, History.new, List.length_singleton] at hi
    interval_cases i
    simp [histAt, PieceTable.fromString, History.new] at hj
  · intro i hi c hc
    simp only [PieceTable.fromString, History.new, List.length_singleton] at hi
    interval_cases i
    simp [histAt, PieceTable.fromString, History.new] at hc
  · refine ⟨fun _ => (PieceTable.fromString s).pieces, rfl, ?_, ?_⟩
    · intro i hi p hp
      exact hpieces p hp
    · intro i hi p hp
      simp only [PieceTable.fromString, History.new, List.length_singleton] at hi
      interval_cases i
      simp [histAt, PieceTable.fromString, History.new] at hp

/-- Common shape of a successful mutating call. -/
theorem edit_shape (t t' : PieceTable) (e : Edit) (hWF : WF t)
    (hok : applyEdit e t = .ok t') :
    ∃ c : Commit,
      exactReplay c.changes t.pieces = some t'.pieces ∧
      t.history.save c = .ok t'.history ∧
      t'.original = t.original ∧
      (∃ ext : List Char, t'.addition = t.addition ++ ext) ∧
      t'.total_length = sumLens t'.pieces ∧
      (∀ p ∈ t'.pieces, pieceWF t'.original t'.addition p ∧ 0 < p.length) ∧
      (∀ ch ∈ c.changes, pieceWF t'.original t'.addition ch.piece) ∧
      (∃ bs : List (List Change), c.changes = bs.flatten ∧ ∀ b ∈ bs, blockOk b) := by
  cases e with
  | ins pos s =>
    obtain ⟨c, h1, h2, h3, h4, h5, _, _, _, h9, h10, h11⟩ :=
      insert_shape t t' pos s hWF.sum_eq hWF.pieces_wf hWF.pieces_pos hok
    exact ⟨c, h1, h2, h3, ⟨s, h4⟩, h5, h9, h10, h11⟩
  | app s =>
    obtain ⟨c, h1, h2, h3, h4, h5, _, _, _, h9, h10, h11⟩ :=
      insert_shape t t' t.total_length s hWF.sum_eq hWF.pieces_wf hWF.pieces_pos hok
    exact ⟨c, h1, h2, h3, ⟨s, h4⟩, h5, h9, h10, h11⟩
  | rem pos n =>
    obtain ⟨c, h1, h2, h3, h4, h5, _, _, _, h9, h10, h11⟩ :=
      remove_shape t t' pos n hWF.sum_eq hWF.pieces_wf hWF.pieces_pos hok
    exact ⟨c, h1, h2, h3, ⟨[], by rw [h4, List.append_nil]⟩, h5, h9, h10, h11⟩

/-- A successful mutating call preserves the invariant. -/
theorem edit_wf (t t' : PieceTable) (e : Edit) (hWF : WF t)
    (hok : applyEdit e t = .ok t') : WF t' := by
  obtain ⟨c, hreplay, hsave, horig, ⟨ext, hadd⟩, htot, hpw, hcw, -⟩ :=
    edit_shape t t' e hWF hok
  have hmono : ∀ q : Piece, pieceWF t.original t.addition q →
      pieceWF t'.original t'.addition q := by
    intro q hq
    rw [horig, hadd]
    exact pieceWF_mono _ _ _ _ hq
  rw [History.save_ok t.history c hWF.hist_ne hWF.head_lt] at hsave
  have hhist : t'.history =
      { changes :=
          (t.history.changes.set t.history.head
            { t.history.changes.get ⟨t.history.head, hWF.head_lt⟩ with
              next := (t.history.changes.get ⟨t.history.head, hWF.head_lt⟩).next
                ++ [t.history.changes.length] })
          ++ [{ previous := some t.history.head, next := [], hot_path := none, commit := c }],
        head := t.history.changes.length } := (Except.ok.inj hsave).symm
  have hlen' : t'.history.changes.length = t.history.changes.length + 1 := by
    rw [hhist]
    simp
  have hhd' : t'.history.head = t.history.changes.length := by rw [hhist]
  have hsetlen : (t.history.changes.set t.history.head
      { t.history.changes.get ⟨t.history.head, hWF.head_lt⟩ with
        next := (t.history.changes.get ⟨t.history.head, hWF.head_lt⟩).next
          ++ [t.history.changes.length] }).length = t.history.changes.length := by simp
  have hAt_new : histAt t' t.history.changes.length =
      { previous := some t.history.head, next := [], hot_path := none, commit := c } := by
    unfold histAt
    rw [hhist]
    simp only
    have := getD_append_cons (α := Entry)
      (t.history.changes.set t.history.head
        { t.history.changes.get ⟨t.history.head, hWF.head_lt⟩ with
          next := (t.history.changes.get ⟨t.history.head, hWF.head_lt⟩).next
            ++ [t.history.changes.length] })
      { previous := some t.history.head, next := [], hot_path := none, commit := c } []
    rw [hsetlen] at this
    exact this
  have hAt_hd : histAt t' t.history.head =
      { histAt t t.history.head with
        next := (histAt t t.history.head).next ++ [t.history.changes.length] } := by
    unfold histAt
    rw [hhist]
    simp only
    rw [getD_append_lt _ _ _ (by rw [hsetlen]; exact hWF.head_lt)]
    rw [getD_set_eq _ _ _ hWF.head_lt]
    rw [getD_eq_get _ _ hWF.head_lt]
  have hAt_old : ∀ i, i < t.history.changes.length → i ≠ t.history.head →
      histAt t' i = histAt t i := by
    intro i hi hne
    unfold histAt
    rw [hhist]
    simp only
    rw [getD_append_lt _ _ _ (by rw [hsetlen]; exact hi)]
    exact getD_set_ne _ _ _ _ hne
  have hprev_eq : ∀ i, i < t.history.changes.length →
      (histAt t' i).previous = (histAt t i).previous := by
    intro i hi
    by_cases hne : i = t.history.head
    · subst hne
      rw [hAt_hd]
    · rw [hAt_old i hi hne]
  have hhot_eq : ∀ i, i < t.history.changes.length →
      (histAt t' i).hot_path = (histAt t i).hot_path := by
    intro i hi
    by_cases hne : i = t.history.head
    · subst hne
      rw [hAt_hd]
    · rw [hAt_old i hi hne]
  have hcommit_eq : ∀ i, i < t.history.changes.length →
      (histAt t' i).commit = (histAt t i).commit := by
    intro i hi
    by_cases hne : i = t.history.head
    · subst hne
      rw [hAt_hd]
    · rw [hAt_old i hi hne]
  have hnext_sub : ∀ i, i < t.history.changes.length →
      ∀ j, j ∈ (histAt t i).next → j ∈ (histAt t' i).next := by
    intro i hi j hj
    by_cases hne : i = t.history.head
    · subst hne
      rw [hAt_hd]
      simp only [List.mem_append]
      exact Or.inl hj
    · rw [hAt_old i hi hne]
      exact hj
  refine ⟨htot, fun p hp => (hpw p hp).1, fun p hp => (hpw p hp).2, ?_, ?_, ?_, ?_, ?_, ?_,
    ?_, ?_⟩
  · rw [← List.length_pos, hlen']
    omega
  · rw [hhd', hlen']
    omega
  · intro i hi p hp
    rw [hlen'] at hi
    by_cases hiN : i = t.history.changes.length
    · subst hiN
      rw [hAt_new] at hp
      simp only [Option.some_inj] at hp
      subst hp
      exact hWF.head_lt
    · have hi' : i < t.history.changes.length := by omega
      rw [hprev_eq i hi'] at hp
      exact hWF.prev_lt i hi' p hp
  · intro i hi p hp
    rw [hlen'] at hi
    by_cases hiN : i = t.history.changes.length
    · subst hiN
      rw [hAt_new] at hp
      simp only [Option.some_inj] at hp
      subst hp
      rw [hAt_hd]
      simp
    · have hi' : i < t.history.changes.length := by omega
      rw [hprev_eq i hi'] at hp
      have hpi := hWF.prev_lt i hi' p hp
      exact hnext_sub p (by omega) i (hWF.prev_next i hi' p hp)
  · intro i hi j hj
    rw [hlen'] at hi
    by_cases hiN : i = t.history.changes.length
    · subst hiN
      rw [hAt_new] at hj
      simp at hj
    · have hi' : i < t.history.changes.length := by omega
      by_cases hihd : i = t.history.head
      · subst hihd
        rw [hAt_hd] at hj
        simp only [List.mem_append, List.mem_singleton] at hj
        rcases hj with hj | rfl
        · obtain ⟨hjl, hjp⟩ := hWF.next_prev _ hi' j hj
          rw [hlen', hprev_eq j hjl]
          exact ⟨by omega, hjp⟩
        · rw [hlen', hAt_new]
          exact ⟨by omega, rfl⟩
      · rw [hAt_old i hi' hihd] at hj
        obtain ⟨hjl, hjp⟩ := hWF.next_prev i hi' j hj
        rw [hlen', hprev_eq j hjl]
        exact ⟨by omega, hjp⟩
  · intro i hi j hj
    rw [hlen'] at hi
    by_cases hiN : i = t.history.changes.length
    · subst hiN
      rw [hAt_new] at hj
      simp at hj
    · have hi' : i < t.history.changes.length := by omega
      rw [hhot_eq i hi'] at hj
      exact hnext_sub i hi' j (hWF.hot_next i hi' j hj)
  · intro i hi ch hch
    rw [hlen'] at hi
    by_cases hiN : i = t.history.changes.length
    · subst hiN
      rw [hAt_new] at hch
      exact hcw ch hch
    · have hi' : i < t.history.changes.length := by omega
      rw [hcommit_eq i hi'] at hch
      exact hmono _ (hWF.commit_wf i hi' ch hch)
  · obtain ⟨S, hShead, hSwf, hSlink⟩ := hWF.states
    refine ⟨fun i => if i = t.history.changes.length then t'.pieces else S i, ?_, ?_, ?_⟩
    · rw [hhd']
      simp
    · intro i hi p hp
      rw [hlen'] at hi
      by_cases hiN : i = t.history.changes.length
      · subst hiN
        simp only [if_pos rfl] at hp
        exact hpw p hp
      · dsimp only at hp
        rw [if_neg hiN] at hp
        have hi' : i < t.history.changes.length := by omega
        obtain ⟨hw, hpos⟩ := hSwf i hi' p hp
        exact ⟨hmono _ hw, hpos⟩
    · intro i hi p hp
      rw [hlen'] at hi
      by_cases hiN : i = t.history.changes.length
      · subst hiN
        rw [hAt_new] at hp ⊢
        simp only [Option.some_inj] at hp
        subst hp
        have hpne : t.history.head ≠ t.history.changes.length := by
          have := hWF.head_lt
          omega
        simp only [if_pos rfl, if_neg hpne, hShead]
        exact hreplay
      · have hi' : i < t.history.changes.length := by
          omega
        rw [hprev_eq i hi'] at hp
        have hplt := hWF.prev_lt i hi' p hp
        have hpN : p ≠ t.history.changes.length := by omega
        dsimp only
        rw [if_neg hiN, if_neg hpN, hcommit_eq i hi']
        exact hSlink i hi' p hp

theorem histAt_mk (orig add : List Char) (pieces : List Piece) (tl : Nat)
    (E : List Entry) (hd : Nat) (i : Nat) :
    histAt { original := orig, addition := add, pieces := pieces, total_length := tl,
             history := { changes := E, head := hd } } i = E.getD i default := rfl

/-- Under the invariant, `undo` always succeeds (no fatal assertion fires),
preserves the invariant, and is the identity at the root entry. -/
theorem undo_total (t : PieceTable) (hWF : WF t) :
    ∃ t', t.undo = .ok t' ∧ WF t' ∧
      ((histAt t t.history.head).previous = none → t' = t) := by
  have hget : t.history.changes.get ⟨t.history.head, hWF.head_lt⟩ =
      histAt t t.history.head := (getD_eq_get _ _ hWF.head_lt).symm
  cases hprev : (histAt t t.history.head).previous with
  | none =>
    have hund : t.history.undo = .ok none := by
      unfold History.undo
      rw [isEmpty_false_of_ne _ hWF.hist_ne]
      simp only [Bool.false_eq_true, if_false, dif_pos hWF.head_lt]
      rw [hget, hprev]
    refine ⟨t, ?_, hWF, fun _ => rfl⟩
    unfold PieceTable.undo
    rw [hund]
  | some p =>
    have hplt : p < t.history.head := hWF.prev_lt _ hWF.head_lt p hprev
    have hpl : p < t.history.changes.length := by
      have := hWF.head_lt
      omega
    have hgetp : t.history.changes.get ⟨p, hpl⟩ = histAt t p :=
      (getD_eq_get _ _ hpl).symm
    have hund : t.history.undo = .ok (some ((histAt t t.history.head).commit,
        { changes := t.history.changes.set p
            { histAt t p with hot_path := some t.history.head }
          head := p })) := by
      unfold History.undo
      rw [isEmpty_false_of_ne _ hWF.hist_ne]
      simp only [Bool.false_eq_true, if_false, dif_pos hWF.head_lt]
      rw [hget, hprev]
      simp only [dif_pos hpl]
      rw [hgetp]
    obtain ⟨S, hShead, hSwf, hSlink⟩ := hWF.states
    have hlink := hSlink t.history.head hWF.head_lt p hprev
    rw [hShead] at hlink
    have hrb := replayBack_exact t.original t.addition
      (histAt t t.history.head).commit.changes (S p) t.pieces
      (hWF.commit_wf t.history.head hWF.head_lt) hlink
    refine ⟨{ t with
        pieces := S p
        total_length := sumLens (S p)
        history :=
          { changes :=
              t.history.changes.set p { histAt t p with hot_path := some t.history.head }
            head := p } }, ?_, ?_, ?_⟩
    · unfold PieceTable.undo
      rw [hund]
      dsimp only
      rw [hWF.sum_eq, hrb]
      rfl
    · have hAt : ∀ i, i ≠ p →
          (t.history.changes.set p
            { histAt t p with hot_path := some t.history.head }).getD i default
          = histAt t i := by
        intro i hne
        exact getD_set_ne _ _ _ _ hne
      have hAtp : (t.history.changes.set p
          { histAt t p with hot_path := some t.history.head }).getD p default
          = { histAt t p with hot_path := some t.history.head } :=
        getD_set_eq _ _ _ hpl
      have hprev_eq : ∀ i,
          ((t.history.changes.set p
            { histAt t p with hot_path := some t.history.head }).getD i default).previous
          = (histAt t i).previous := by
        intro i
        by_cases hne : i = p
        · subst hne
          rw [hAtp]
        · rw [hAt i hne]
      have hnext_eq : ∀ i,
          ((t.history.changes.set p
            { histAt t p with hot_path := some t.history.head }).getD i default).next
          = (histAt t i).next := by
        intro i
        by_cases hne : i = p
        · subst hne
          rw [hAtp]
        · rw [hAt i hne]
      have hcommit_eq : ∀ i,
          ((t.history.changes.set p
            { histAt t p with hot_path := some t.history.head }).getD i default).commit
          = (histAt t i).commit := by
        intro i
        by_cases hne : i = p
        · subst hne
          rw [hAtp]
        · rw [hAt i hne]
      refine ⟨rfl, ?_, ?_, ?_, ?_, ?_, ?_, ?_, ?_, ?_, ?_⟩
      · intro q hq
        exact (hSwf p hpl q hq).1
      · intro q hq
        exact (hSwf p hpl q hq).2
      · rw [← List.length_pos]
        simp only [List.length_set]
        have := hWF.head_lt
        omega
      · simp only [List.length_set]
        exact hpl
      · intro i hi q hq
        simp only [List.length_set] at hi
        rw [histAt_mk, hprev_eq i] at hq
        exact hWF.prev_lt i hi q hq
      · intro i hi q hq
        simp only [List.length_set] at hi
        rw [histAt_mk, hprev_eq i] at hq
        rw [histAt_mk, hnext_eq q]
        exact hWF.prev_next i hi q hq
      · intro i hi j hj
        simp only [List.length_set] at hi ⊢
        rw [histAt_mk, hnext_eq i] at hj
        obtain ⟨hjl, hjp⟩ := hWF.next_prev i hi j hj
        rw [histAt_mk, hprev_eq j]
        exact ⟨hjl, hjp⟩
      · intro i hi j hj
        simp only [List.length_set] at hi
        rw [histAt_mk] at hj ⊢
        rw [hnext_eq i]
        by_cases hne : i = p
        · rw [hne] at hj
          rw [hAtp] at hj
          simp only [Option.some_inj] at hj
          subst hj
          rw [hne]
          exact hWF.prev_next _ hWF.head_lt p hprev
        · rw [hAt i hne] at hj
          exact hWF.hot_next i hi j hj
      · intro i hi ch hch
        simp only [List.length_set] at hi
        rw [histAt_mk, hcommit_eq i] at hch
        exact hWF.commit_wf i hi ch hch
      · refine ⟨S, rfl, ?_, ?_⟩
        · intro i hi q hq
          simp only [List.length_set] at hi
          exact hSwf i hi q hq
        · intro i hi q hq
          simp only [List.length_set] at hi
          rw [histAt_mk, hprev_eq i] at hq
          rw [histAt_mk, hcommit_eq i]
          exact hSlink i hi q hq
    · intro hcon
      simp at hcon

/-- Under the invariant, `hot_redo` always succeeds and preserves the
invariant; at an entry without a hot path it is the identity. -/
theorem hot_redo_total (t : PieceTable) (hWF : WF t) :
    ∃ t', t.hot_redo = .ok t' ∧ WF t' ∧
      ((histAt t t.history.head).hot_path = none → t' = t) := by
  have hget : t.history.changes.get ⟨t.history.head, hWF.head_lt⟩ =
      histAt t t.history.head := (getD_eq_get _ _ hWF.head_lt).symm
  cases hhot : (histAt t t.history.head).hot_path with
  | none =>
    have hred : t.history.hot_redo = .ok none := by
      unfold History.hot_redo
      rw [isEmpty_false_of_ne _ hWF.hist_ne]
      simp only [Bool.false_eq_true, if_false, dif_pos hWF.head_lt]
      rw [hget, hhot]
    refine ⟨t, ?_, hWF, fun _ => rfl⟩
    unfold PieceTable.hot_redo
    rw [hred]
  | some q =>
    have hmem : q ∈ (histAt t t.history.head).next :=
      hWF.hot_next _ hWF.head_lt q hhot
    obtain ⟨hql, hqprev⟩ := hWF.next_prev _ hWF.head_lt q hmem
    have hgetq : t.history.changes.get ⟨q, hql⟩ = histAt t q :=
      (getD_eq_get _ _ hql).symm
    have hcontains : (histAt t t.history.head).next.contains q = true :=
      List.elem_eq_true_of_mem hmem
    have hred : t.history.hot_redo = .ok (some ((histAt t q).commit,
        { changes := t.history.changes, head := q })) := by
      unfold History.hot_redo
      rw [isEmpty_false_of_ne _ hWF.hist_ne]
      simp only [Bool.false_eq_true, if_false, dif_pos hWF.head_lt]
      rw [hget, hhot]
      simp only [dif_pos hql]
      rw [if_pos hcontains, hgetq]
    obtain ⟨S, hShead, hSwf, hSlink⟩ := hWF.states
    have hlink := hSlink q hql t.history.head hqprev
    rw [hShead] at hlink
    have hrf := replayFwd_exact t.original t.addition
      (histAt t q).commit.changes t.pieces (S q)
      (hWF.commit_wf q hql) hlink
    refine ⟨{ t with
        pieces := S q
        total_length := sumLens (S q)
        history := { changes := t.history.changes, head := q } }, ?_, ?_, ?_⟩
    · unfold PieceTable.hot_redo
      rw [hred]
      dsimp only
      rw [hWF.sum_eq, hrf]
      rfl
    · refine ⟨rfl, ?_, ?_, ?_, ?_, ?_, ?_, ?_, ?_, ?_, ?_⟩
      · intro x hx
        exact (hSwf q hql x hx).1
      · intro x hx
        exact (hSwf q hql x hx).2
      · exact hWF.hist_ne
      · exact hql
      · intro i hi x hx
        rw [histAt_mk] at hx
        exact hWF.prev_lt i hi x hx
      · intro i hi x hx
        rw [histAt_mk] at hx
        rw [histAt_mk]
        exact hWF.prev_next i hi x hx
      · intro i hi j hj
        rw [histAt_mk] at hj
        obtain ⟨hjl, hjp⟩ := hWF.next_prev i hi j hj
        rw [histAt_mk]
        exact ⟨hjl, hjp⟩
      · intro i hi j hj
        rw [histAt_mk] at hj ⊢
        exact hWF.hot_next i hi j hj
      · intro i hi ch hch
        rw [histAt_mk] at hch
        exact hWF.commit_wf i hi ch hch
      · refine ⟨S, rfl, hSwf, ?_⟩
        intro i hi x hx
        rw [histAt_mk] at hx ⊢
        exact hSlink i hi x hx
    · intro hcon
      simp at hcon

/-- Reachable buffers satisfy the invariant. -/
theorem reachable_wf (t : PieceTable) (h : Reachable t) : WF t := by
  induction h with
  | create s => exact fromString_wf s
  | edit e _ hok ih => exact edit_wf _ _ e ih hok
  | undo _ hok ih =>
    obtain ⟨t'', hok'', hwf'', _⟩ := undo_total _ ih
    rw [hok] at hok''
    rw [Except.ok.inj hok'']
    exact hwf''
  | hot_redo _ hok ih =>
    obtain ⟨t'', hok'', hwf'', _⟩ := hot_redo_total _ ih
    rw [hok] at hok''
    rw [Except.ok.inj hok'']
    exact hwf''

/-! ### Correctness of `_slice` boundary arithmetic -/

theorem strSlice_append (A B : List Char) (a b : Nat) :
    strSlice (A ++ B) a b = strSlice A a b ++ strSlice B (a - A.length) (b - A.length) := by
  unfold strSlice
  rw [List.drop_append_eq_append_drop, List.take_append_eq_append_take]
  congr 1
  rw [List.length_drop]
  congr 1
  omega

theorem pieceText_length (orig add : List Char) (p : Piece) (h : pieceWF orig add p) :
    (pieceText orig add p).length = p.length := by
  unfold pieceWF srcLen at h
  unfold pieceText extractS
  cases hsrc : p.source <;> rw [hsrc] at h <;> simp at h ⊢ <;> omega

theorem slice_arm_mid (s : List Char) (off plen a b : Nat) (hb : plen ≤ b) :
    extractS s (off + a) (off + plen) = strSlice (extractS s off (off + plen)) a b := by
  unfold extractS strSlice
  rw [show off + plen - off = plen by omega]
  rw [List.drop_take, List.drop_drop]
  rw [List.take_take]
  rw [show off + plen - (off + a) = plen - a by omega]
  congr 1
  omega

theorem slice_arm_slice (s : List Char) (off plen a b : Nat) (hb : b ≤ plen) :
    extractS s (off + a) (off + b) = strSlice (extractS s off (off + plen)) a b := by
  unfold extractS strSlice
  rw [show off + plen - off = plen by omega]
  rw [List.drop_take, List.drop_drop]
  rw [List.take_take]
  rw [show off + b - (off + a) = b - a by omega]
  congr 1
  omega

theorem strSlice_of_le (s : List Char) (a b : Nat) (h : s.length ≤ a) :
    strSlice s a b = [] := by
  unfold strSlice
  rw [List.drop_eq_nil_of_le h]
  simp

theorem strSlice_zero (s : List Char) (a : Nat) : strSlice s a 0 = [] := by
  unfold strSlice
  simp

/-- The `_slice` walking loop computes exactly the byte range of the
concatenated piece text (indices shifted by the running accumulator). -/
theorem sliceGo_spec (orig add : List Char) (lower upper : Nat) :
    ∀ (l : List Piece) (acc : Nat),
      (∀ p ∈ l, pieceWF orig add p) → (∀ p ∈ l, 0 < p.length) →
      sliceGo orig add lower upper l acc
        = strSlice (piecesText orig add l) (lower - acc) (upper - acc)
  | [], acc, _, _ => by
    simp [sliceGo, piecesText, strSlice]
  | p :: rest, acc, hwf, hpos => by
    have hwfp := hwf p (by simp)
    have hposp := hpos p (by simp)
    have ih := sliceGo_spec orig add lower upper rest (acc + p.length)
      (fun q hq => hwf q (by simp [hq])) (fun q hq => hpos q (by simp [hq]))
    have htext : piecesText orig add (p :: rest)
        = pieceText orig add p ++ piecesText orig add rest := by
      simp [piecesText]
    rw [htext, strSlice_append, pieceText_length orig add p hwfp]
    by_cases hbreak : upper ≤ acc
    · rw [sliceGo, if_pos hbreak]
      rw [show upper - acc = 0 by omega, strSlice_zero,
        show (0 : Nat) - p.length = 0 by omega, strSlice_zero]
      rfl
    · rw [sliceGo, if_neg hbreak]
      dsimp only
      have hsub1 : lower - acc - p.length = lower - (acc + p.length) := by omega
      have hsub2 : upper - acc - p.length = upper - (acc + p.length) := by omega
      rw [ih, hsub1, hsub2]
      congr 1
      set src := (match p.source with
        | PieceSource.original => orig
        | PieceSource.addition => add) with hsrc
      by_cases hc1 : lower ≤ acc
      · by_cases hc2 : upper ≥ acc + p.length ∧ acc + p.length > lower
        · rw [if_neg (by intro hcon; exact hcon.1 hc1), if_pos ⟨hc1, hc2⟩]
          rw [show p.offset + p.length = p.offset + p.length from rfl]
          rw [show lower - acc = 0 by omega]
          have := slice_arm_mid src p.offset p.length 0 (upper - acc) (by omega)
          rw [show p.offset + 0 = p.offset by omega] at this
          exact this.trans (by rw [hsrc]; rfl)
        · rw [if_neg (by intro hcon; exact hcon.1 hc1), if_neg (by intro hcon; exact hc2 hcon.2),
            if_pos ⟨hc1, fun hcon => hc2 hcon⟩]
          have hup : upper < acc + p.length := by
            rcases Nat.lt_or_ge upper (acc + p.length) with h | h
            · exact h
            · exact absurd ⟨h, by omega⟩ hc2
          rw [show lower - acc = 0 by omega]
          have := slice_arm_slice src p.offset p.length 0 (upper - acc) (by omega)
          rw [show p.offset + 0 = p.offset by omega] at this
          rw [show p.offset + (upper - acc) = p.offset + (upper - acc) from rfl]
          exact this.trans (by rw [hsrc]; rfl)
      · by_cases hc2 : upper ≥ acc + p.length ∧ acc + p.length > lower
        · rw [if_pos ⟨fun hcon => hc1 hcon, hc2⟩]
          have := slice_arm_mid src p.offset p.length (lower - acc) (upper - acc) (by omega)
          exact this.trans (by rw [hsrc]; rfl)
        · by_cases hc3 : acc < lower ∧ upper < acc + p.length
          · rw [if_neg (by intro hcon; exact hc2 hcon.2), if_neg (by intro hcon; exact hc1 hcon.1),
              if_neg (by intro hcon; exact hc1 hcon.1), if_pos hc3]
            have := slice_arm_slice src p.offset p.length (lower - acc) (upper - acc) (by omega)
            exact this.trans (by rw [hsrc]; rfl)
          · rw [if_neg (by intro hcon; exact hc2 hcon.2), if_neg (by intro hcon; exact hc1 hcon.1),
              if_neg (by intro hcon; exact hc1 hcon.1), if_neg hc3]
            have hskip : acc + p.length ≤ lower := by
              rcases Nat.lt_or_ge upper (acc + p.length) with h | h
              · exact absurd ⟨by omega, h⟩ hc3
              · rcases Nat.lt_or_ge lower (acc + p.length) with h' | h'
                · exact absurd ⟨h, h'⟩ hc2
                · exact h'
            rw [strSlice_of_le _ _ _ (by rw [pieceText_length orig add p hwfp]; omega)]

theorem piecesText_length (orig add : List Char) :
    ∀ (l : List Piece), (∀ p ∈ l, pieceWF orig add p) →
      (piecesText orig add l).length = sumLens l
  | [], _ => rfl
  | p :: rest, hwf => by
    have h1 := pieceText_length orig add p (hwf p (by simp))
    have h2 := piecesText_length orig add rest (fun q hq => hwf q (by simp [hq]))
    simp only [piecesText, List.map_cons, List.flatten_cons, List.length_append, sumLens_cons]
    simp only [piecesText] at h2
    omega

theorem sumLens_zero_nil (l : List Piece) (hpos : ∀ p ∈ l, 0 < p.length)
    (h : sumLens l = 0) : l = [] := by
  cases l with
  | nil => rfl
  | cons p rest =>
    have := hpos p (by simp)
    rw [sumLens_cons] at h
    omega

/-- Under the invariant, the rendered text is the concatenation of the
piece texts. -/
theorem render_eq (t : PieceTable) (hWF : WF t) :
    t.render = piecesText t.original t.addition t.pieces := by
  unfold PieceTable.render
  by_cases h0 : t.total_length = 0
  · rw [if_pos h0]
    rw [sumLens_zero_nil t.pieces hWF.pieces_pos (by rw [← hWF.sum_eq]; exact h0)]
    rfl
  · rw [if_neg h0]
    unfold PieceTable.sliceImpl
    rw [if_neg (by omega), if_neg (by omega)]
    rw [sliceGo_spec t.original t.addition 0 t.total_length t.pieces 0
      hWF.pieces_wf hWF.pieces_pos]
    simp only [Nat.sub_zero, Except.toOption, Option.getD_some]
    unfold strSlice
    rw [List.drop_zero, Nat.sub_zero]
    rw [List.take_of_length_le]
    rw [piecesText_length t.original t.addition t.pieces hWF.pieces_wf, ← hWF.sum_eq]

/-- Under the invariant, `_slice` returns exactly the byte range of the
rendered text. -/
theorem sliceImpl_spec (t : PieceTable) (hWF : WF t) (i j : Nat)
    (hij : i < j) (hj : j ≤ t.total_length) :
    t.sliceImpl i j = .ok (strSlice t.render i j) := by
  unfold PieceTable.sliceImpl
  rw [if_neg (not_not_intro hij), if_neg (not_not_intro hj)]
  rw [sliceGo_spec t.original t.addition i j t.pieces 0 hWF.pieces_wf hWF.pieces_pos]
  rw [render_eq t hWF]
  simp

theorem render_congr (t1 t2 : PieceTable) (h1 : t1.original = t2.original)
    (h2 : t1.addition = t2.addition) (h3 : t1.pieces = t2.pieces)
    (h4 : t1.total_length = t2.total_length) : t1.render = t2.render := by
  cases t1
  cases t2
  simp only at h1 h2 h3 h4
  subst h1
  subst h2
  subst h3
  subst h4
  rfl

/-- After a successful edit, `undo` restores the pre-edit piece sequence and
length, and `hot_redo` then reproduces the post-edit state (pieces, length,
logs, and history head). -/
theorem edit_undo_redo (t t' : PieceTable) (e : Edit) (hWF : WF t)
    (hok : applyEdit e t = .ok t') :
    ∃ t'' t''' : PieceTable,
      t'.undo = .ok t'' ∧
      t''.pieces = t.pieces ∧ t''.total_length = t.total_length ∧
      t''.original = t.original ∧ t''.addition = t'.addition ∧
      t''.hot_redo = .ok t''' ∧
      t'''.pieces = t'.pieces ∧ t'''.total_length = t'.total_length ∧
      t'''.original = t'.original ∧ t'''.addition = t'.addition ∧
      t'''.history.head = t'.history.head := by
  obtain ⟨c, hreplay, hsave, horig, ⟨ext, hadd⟩, htot, hpw, hcw, -⟩ :=
    edit_shape t t' e hWF hok
  rw [History.save_ok t.history c hWF.hist_ne hWF.head_lt] at hsave
  have hhist : t'.history =
      { changes :=
          (t.history.changes.set t.history.head
            { t.history.changes.get ⟨t.history.head, hWF.head_lt⟩ with
              next := (t.history.changes.get ⟨t.history.head, hWF.head_lt⟩).next
                ++ [t.history.changes.length] })
          ++ [{ previous := some t.history.head, next := [], hot_path := none, commit := c }],
        head := t.history.changes.length } := (Except.ok.inj hsave).symm
  have hheadN : t'.history.head = t.history.changes.length := by rw [hhist]
  have hsetlen : (t.history.changes.set t.history.head
      { t.history.changes.get ⟨t.history.head, hWF.head_lt⟩ with
        next := (t.history.changes.get ⟨t.history.head, hWF.head_lt⟩).next
          ++ [t.history.changes.length] }).length = t.history.changes.length := by simp
  have hlen' : t'.history.changes.length = t.history.changes.length + 1 := by
    rw [hhist]
    simp
  have hAtN : t'.history.changes.getD t.history.changes.length default =
      { previous := some t.history.head, next := [], hot_path := none, commit := c } := by
    rw [hhist]
    simp only
    have := getD_append_cons (α := Entry)
      (t.history.changes.set t.history.head
        { t.history.changes.get ⟨t.history.head, hWF.head_lt⟩ with
          next := (t.history.changes.get ⟨t.history.head, hWF.head_lt⟩).next
            ++ [t.history.changes.length] })
      { previous := some t.history.head, next := [], hot_path := none, commit := c } []
    rw [hsetlen] at this
    exact this
  have hAthd : t'.history.changes.getD t.history.head default =
      { t.history.changes.get ⟨t.history.head, hWF.head_lt⟩ with
        next := (t.history.changes.get ⟨t.history.head, hWF.head_lt⟩).next
          ++ [t.history.changes.length] } := by
    rw [hhist]
    simp only
    rw [getD_append_lt _ _ _ (by rw [hsetlen]; exact hWF.head_lt)]
    exact getD_set_eq _ _ _ hWF.head_lt
  have hne' : t'.history.changes ≠ [] := by
    rw [← List.length_pos, hlen']
    omega
  have hlt' : t'.history.head < t'.history.changes.length := by
    rw [hheadN, hlen']
    omega
  have hhdlt' : t.history.head < t'.history.changes.length := by
    rw [hlen']
    have := hWF.head_lt
    omega
  have hund : t'.history.undo = .ok (some (c,
      { changes := t'.history.changes.set t.history.head
          { t'.history.changes.getD t.history.head default with
            hot_path := some t.history.changes.length }
        head := t.history.head })) := by
    unfold History.undo
    rw [isEmpty_false_of_ne _ hne']
    simp only [Bool.false_eq_true, if_false, dif_pos hlt']
    rw [show t'.history.changes.get ⟨t'.history.head, hlt'⟩
        = t'.history.changes.getD t'.history.head default from
          (getD_eq_get _ _ hlt').symm]
    rw [show t'.history.changes.getD t'.history.head default
        = t'.history.changes.getD t.history.changes.length default by rw [hheadN]]
    rw [hAtN]
    simp only [dif_pos hhdlt']
    rw [show t'.history.changes.get ⟨t.history.head, hhdlt'⟩
        = t'.history.changes.getD t.history.head default from
          (getD_eq_get _ _ hhdlt').symm]
    rw [hheadN]
  have hrb := replayBack_exact t'.original t'.addition c.changes t.pieces t'.pieces
    hcw hreplay
  refine ⟨{ t' with
      pieces := t.pieces
      total_length := sumLens t.pieces
      history :=
        { changes := t'.history.changes.set t.history.head
            { t'.history.changes.getD t.history.head default with
              hot_path := some t.history.changes.length }
          head := t.history.head } }, ?_⟩
  have hE''len : (t'.history.changes.set t.history.head
      { t'.history.changes.getD t.history.head default with
        hot_path := some t.history.changes.length }).length
      = t.history.changes.length + 1 := by
    rw [List.length_set]
    exact hlen'
  have hE''hd : (t'.history.changes.set t.history.head
      { t'.history.changes.getD t.history.head default with
        hot_path := some t.history.changes.length }).getD t.history.head default
      = { t'.history.changes.getD t.history.head default with
          hot_path := some t.history.changes.length } :=
    getD_set_eq _ _ _ hhdlt'
  have hE''N : (t'.history.changes.set t.history.head
      { t'.history.changes.getD t.history.head default with
        hot_path := some t.history.changes.length }).getD
        t.history.changes.length default
      = { previous := some t.history.head, next := [], hot_path := none, commit := c } := by
    rw [getD_set_ne _ _ _ _ (by have := hWF.head_lt; omega)]
    exact hAtN
  have hcontains : ({ t'.history.changes.getD t.history.head default with
      hot_path := some t.history.changes.length } : Entry).next.contains
        t.history.changes.length = true := by
    apply List.elem_eq_true_of_mem
    show t.history.changes.length ∈
      (t'.history.changes.getD t.history.head default).next
    rw [hAthd]
    simp
  have hred : (History.mk (t'.history.changes.set t.history.head
        { t'.history.changes.getD t.history.head default with
          hot_path := some t.history.changes.length }) t.history.head).hot_redo
      = .ok (some (c, History.mk (t'.history.changes.set t.history.head
          { t'.history.changes.getD t.history.head default with
            hot_path := some t.history.changes.length }) t.history.changes.length)) := by
    unfold History.hot_redo
    rw [isEmpty_false_of_ne _ (by
      rw [← List.length_pos, hE''len]
      omega)]
    simp only [Bool.false_eq_true, if_false]
    rw [dif_pos (show t.history.head <
      (t'.history.changes.set t.history.head
        { t'.history.changes.getD t.history.head default with
          hot_path := some t.history.changes.length }).length by
        rw [hE''len]
        have := hWF.head_lt
        omega)]
    rw [show (t'.history.changes.set t.history.head
        { t'.history.changes.getD t.history.head default with
          hot_path := some t.history.changes.length }).get
          ⟨t.history.head, _⟩
        = (t'.history.changes.set t.history.head
          { t'.history.changes.getD t.history.head default with
            hot_path := some t.history.changes.length }).getD t.history.head default from
          (getD_eq_get _ _ _).symm]
    rw [hE''hd]
    simp only [dif_pos (show t.history.changes.length <
      (t'.history.changes.set t.history.head
        { t'.history.changes.getD t.history.head default with
          hot_path := some t.history.changes.length }).length by
        rw [hE''len]
        omega)]
    rw [if_pos hcontains]
    rw [show (t'.history.changes.set t.history.head
        { t'.history.changes.getD t.history.head default with
          hot_path := some t.history.changes.length }).get
          ⟨t.history.changes.length, _⟩
        = (t'.history.changes.set t.history.head
          { t'.history.changes.getD t.history.head default with
            hot_path := some t.history.changes.length }).getD
            t.history.changes.length default from (getD_eq_get _ _ _).symm]
    rw [hE''N]
  have hrf := replayFwd_exact t'.original t'.addition c.changes t.pieces t'.pieces
    hcw hreplay
  refine ⟨{ t' with
      pieces := t'.pieces
      total_length := sumLens t'.pieces
      history := History.mk (t'.history.changes.set t.history.head
          { t'.history.changes.getD t.history.head default with
            hot_path := some t.history.changes.length }) t.history.changes.length },
    ?_, rfl, hWF.sum_eq.symm, horig, rfl, ?_, rfl, htot.symm, rfl, rfl, hheadN.symm⟩
  · unfold PieceTable.undo
    rw [hund]
    dsimp only
    rw [htot, hrb]
    rfl
  · unfold PieceTable.hot_redo
    dsimp only
    rw [hred]
    dsimp only
    rw [hrf]
    rfl

/-- With valid arguments, `remove` always succeeds under the invariant. -/
theorem remove_total (t : PieceTable) (hWF : WF t) (pos n : Nat)
    (hn : n ≠ 0) (hrange : pos + n ≤ t.total_length) :
    ∃ t', t.remove pos n = .ok t' := by
  simp only [PieceTable.remove]
  rw [if_neg (by omega), if_neg hn]
  rw [History.save_ok t.history _ hWF.hist_ne hWF.head_lt]
  exact ⟨_, rfl⟩

/-- With valid arguments, `insert` always succeeds under the invariant. -/
theorem insert_total (t : PieceTable) (hWF : WF t) (pos : Nat) (s : List Char)
    (hpos : pos ≤ t.total_length) (hs : ¬ s.isEmpty = true) :
    ∃ t', t.insert pos s = .ok t' := by
  simp only [PieceTable.insert]
  rw [if_neg (by omega), if_neg hs]
  by_cases hsp : pos = 0 ∨ pos = t.total_length
  · rw [if_pos hsp]
    rw [History.save_ok t.history _ hWF.hist_ne hWF.head_lt]
    exact ⟨_, rfl⟩
  · rw [if_neg hsp]
    by_cases hlp : (insertScan t.pieces 0 0 pos).2 = 0
    · rw [if_pos hlp]
      rw [History.save_ok t.history _ hWF.hist_ne hWF.head_lt]
      exact ⟨_, rfl⟩
    · rw [if_neg hlp]
      rw [History.save_ok t.history _ hWF.hist_ne hWF.head_lt]
      exact ⟨_, rfl⟩

/-- The commit stored at the history head. -/
def headCommit (t : PieceTable) : Commit :=
  (histAt t t.history.head).commit

theorem save_head_commit (h : History) (c : Commit) (hne : h.changes ≠ [])
    (hlt : h.head < h.changes.length) (h' : History) (hs : h.save c = .ok h') :
    (h'.changes.getD h'.head default).commit = c := by
  rw [History.save_ok h c hne hlt] at hs
  rw [(Except.ok.inj hs).symm]
  simp only
  have hsetlen : (h.changes.set h.head
      { h.changes.get ⟨h.head, hlt⟩ with
        next := (h.changes.get ⟨h.head, hlt⟩).next ++ [h.changes.length] }).length
      = h.changes.length := by simp
  have := getD_append_cons (α := Entry)
    (h.changes.set h.head
      { h.changes.get ⟨h.head, hlt⟩ with
        next := (h.changes.get ⟨h.head, hlt⟩).next ++ [h.changes.length] })
    { previous := some h.head, next := [], hot_path := none, commit := c } []
  rw [hsetlen] at this
  rw [this]

/-- Claim C2's ordering property over a whole change list: no Deletion ever
appears after an Insertion. -/
def delsBeforeIns (cs : List Change) : Prop :=
  List.Pairwise (fun a b => ¬ (a.typ = ChangeType.insertion ∧ b.typ = ChangeType.deletion)) cs

instance (cs : List Change) : Decidable (delsBeforeIns cs) := by
  unfold delsBeforeIns
  infer_instance

/-- The change blocks `PieceTable::insert` records, translated from the
commit construction of the source: the special case and the local-offset-0
case after the scan record one lone-Insertion block for the single inserted
piece; the split path records one block holding the Deletion of the split
piece followed by the three Insertions that replace it. -/
def insertBlocks (t : PieceTable) (pos : Nat) (s : List Char) : List (List Change) :=
  let special_case := pos = 0 ∨ pos = t.total_length
  let piece : Piece := ⟨PieceSource.addition, t.addition.length, s.length⟩
  if special_case then
    let idx := if pos = 0 then 0 else t.pieces.length
    [[⟨idx, piece, ChangeType.insertion⟩]]
  else
    let scan := insertScan t.pieces 0 0 pos
    let idx := scan.1
    let lpos := scan.2
    if lpos = 0 then
      [[⟨idx, piece, ChangeType.insertion⟩]]
    else
      let old := t.pieces.getD idx default
      let trailing : Piece := ⟨old.source, old.offset + lpos, old.length - lpos⟩
      let shrunk : Piece := { old with length := lpos }
      [[⟨idx, old, ChangeType.deletion⟩, ⟨idx, shrunk, ChangeType.insertion⟩,
        ⟨idx + 1, piece, ChangeType.insertion⟩, ⟨idx + 2, trailing, ChangeType.insertion⟩]]

/-- One step of the application loop of `PieceTable::remove`, with the
changes of the per-piece operation kept as their own block instead of being
appended to a flat list. -/
def applyRemoveBlock (n : Nat) (st : List Piece × List (List Change)) (op : RemoveOp) :
    List Piece × List (List Change) :=
  (removeStep n st.1 op, st.2 ++ [removeChanges n st.1 op])

/-- The change blocks `PieceTable::remove` records: one block per classified
per-piece operation, in the order the application loop visits them (reverse
index order). -/
def removeBlocks (t : PieceTable) (pos n : Nat) : List (List Change) :=
  ((classifyGo pos n t.pieces 0 0).reverse.foldl (applyRemoveBlock n) (t.pieces, [])).2

/-- The per-piece-operation change blocks of the commit one public edit
records. -/
def editBlocks (e : Edit) (t : PieceTable) : List (List Change) :=
  match e with
  | Edit.ins pos s => insertBlocks t pos s
  | Edit.app s => insertBlocks t t.total_length s
  | Edit.rem pos n => removeBlocks t pos n

/-- The grouped removal fold computes the same piece list as the flat one,
and its blocks flatten to the flat fold's change list. -/
theorem applyRemoveBlock_fold (n : Nat) :
    ∀ (ops : List RemoveOp) (l : List Piece) (cs : List Change) (bs : List (List Change)),
      cs = bs.flatten →
      ops.foldl (applyRemove n) (l, cs)
        = ((ops.foldl (applyRemoveBlock n) (l, bs)).1,
           ((ops.foldl (applyRemoveBlock n) (l, bs)).2).flatten)
  | [], l, cs, bs, h => by simp [h]
  | op :: ops, l, cs, bs, h => by
    rw [List.foldl_cons, List.foldl_cons, applyRemove_decomp]
    exact applyRemoveBlock_fold n ops (removeStep n l op) (cs ++ removeChanges n l op)
      (bs ++ [removeChanges n l op]) (by rw [h, List.flatten_append]; simp)

/-- Every block the grouped removal fold emits satisfies the
deletion-before-insertion ordering. -/
theorem applyRemoveBlock_blockOk (n : Nat) :
    ∀ (ops : List RemoveOp) (l : List Piece) (bs : List (List Change)),
      (∀ b ∈ bs, blockOk b) →
      ∀ b ∈ (ops.foldl (applyRemoveBlock n) (l, bs)).2, blockOk b
  | [], l, bs, hbs => by
    intro b hb
    exact hbs b hb
  | op :: ops, l, bs, hbs => by
    rw [List.foldl_cons]
    exact applyRemoveBlock_blockOk n ops (removeStep n l op) (bs ++ [removeChanges n l op])
      (by
        intro b hb
        rcases List.mem_append.mp hb with hb | hb
        · exact hbs b hb
        · rw [List.mem_singleton.mp hb]
          exact removeChanges_blockOk n l op)

theorem removeBlocks_blockOk (t : PieceTable) (pos n : Nat) :
    ∀ b ∈ removeBlocks t pos n, blockOk b := by
  unfold removeBlocks
  exact applyRemoveBlock_blockOk n _ t.pieces []
    (by intro b hb; simp at hb)

theorem insertBlocks_blockOk (t : PieceTable) (pos : Nat) (s : List Char) :
    ∀ b ∈ insertBlocks t pos s, blockOk b := by
  intro b hb
  simp only [insertBlocks] at hb
  split at hb
  · simp only [List.mem_singleton] at hb
    subst hb
    simp [blockOk]
  · split at hb
    · simp only [List.mem_singleton] at hb
      subst hb
      simp [blockOk]
    · simp only [List.mem_singleton] at hb
      subst hb
      simp [blockOk]

/-- A successful `insert` saves exactly the concatenation of its
per-piece-operation blocks as the new head commit. -/
theorem insert_commit_blocks (t t' : PieceTable) (pos : Nat) (s : List Char)
    (hne : t.history.changes ≠ []) (hlt : t.history.head < t.history.changes.length)
    (hok : t.insert pos s = .ok t') :
    (headCommit t').changes = (insertBlocks t pos s).flatten := by
  by_cases h1 : pos > t.total_length
  · simp only [PieceTable.insert, if_pos h1] at hok
    exact absurd hok (by simp)
  by_cases h2 : s.isEmpty
  · simp only [PieceTable.insert, if_neg h1, if_pos h2] at hok
    exact absurd hok (by simp)
  simp only [PieceTable.insert, if_neg h1, if_neg h2] at hok
  by_cases hsp : pos = 0 ∨ pos = t.total_length
  · simp only [if_pos hsp] at hok
    obtain ⟨h', hsave, ht'⟩ := except_map_ok _ _ _ hok
    have hc := save_head_commit t.history _ hne hlt h' hsave
    unfold headCommit histAt
    rw [ht']
    dsimp only
    rw [hc]
    simp [insertBlocks, hsp]
  · simp only [if_neg hsp] at hok
    by_cases hlp : (insertScan t.pieces 0 0 pos).2 = 0
    · simp only [if_pos hlp] at hok
      obtain ⟨h', hsave, ht'⟩ := except_map_ok _ _ _ hok
      have hc := save_head_commit t.history _ hne hlt h' hsave
      unfold headCommit histAt
      rw [ht']
      dsimp only
      rw [hc]
      simp [insertBlocks, hsp, hlp]
    · simp only [if_neg hlp] at hok
      obtain ⟨h', hsave, ht'⟩ := except_map_ok _ _ _ hok
      have hc := save_head_commit t.history _ hne hlt h' hsave
      unfold headCommit histAt
      rw [ht']
      dsimp only
      rw [hc]
      simp [insertBlocks, hsp, hlp]

/-- A successful `remove` saves exactly the concatenation of its
per-piece-operation blocks (one block per classified operation, applied in
reverse index order) as the new head commit. -/
theorem remove_commit_blocks (t t' : PieceTable) (pos n : Nat)
    (hne : t.history.changes ≠ []) (hlt : t.history.head < t.history.changes.length)
    (hok : t.remove pos n = .ok t') :
    (headCommit t').changes = (removeBlocks t pos n).flatten := by
  by_cases h1 : pos + n > t.total_length
  · simp only [PieceTable.remove, if_pos h1] at hok
    exact absurd hok (by simp)
  by_cases h2 : n = 0
  · simp only [PieceTable.remove, if_neg h1, if_pos h2] at hok
    exact absurd hok (by simp)
  simp only [PieceTable.remove, if_neg h1, if_neg h2] at hok
  obtain ⟨h', hsave, ht'⟩ := except_map_ok _ _ _ hok
  have hc := save_head_commit t.history _ hne hlt h' hsave
  have hfold := applyRemoveBlock_fold n (classifyGo pos n t.pieces 0 0).reverse t.pieces [] []
    (by simp)
  unfold headCommit histAt
  rw [ht']
  dsimp only
  rw [hc]
  dsimp only
  rw [hfold]
  rfl

/-- The head commit of a successful public edit is exactly the concatenation
of the edit's per-piece-operation blocks, each internally
deletion-before-insertion ordered. -/
theorem edit_commit_blocks (t t' : PieceTable) (e : Edit)
    (hne : t.history.changes ≠ []) (hlt : t.history.head < t.history.changes.length)
    (hok : applyEdit e t = .ok t') :
    (headCommit t').changes = (editBlocks e t).flatten ∧
    ∀ b ∈ editBlocks e t, blockOk b := by
  cases e with
  | ins pos s =>
    exact ⟨insert_commit_blocks t t' pos s hne hlt hok, insertBlocks_blockOk t pos s⟩
  | app s =>
    exact ⟨insert_commit_blocks t t' t.total_length s hne hlt hok,
      insertBlocks_blockOk t t.total_length s⟩
  | rem pos n =>
    exact ⟨remove_commit_blocks t t' pos n hne hlt hok, removeBlocks_blockOk t pos n⟩

/-- Runs a list of edits, ignoring failed ones (used to build concrete
reachable buffers). -/
def runEdits (t : PieceTable) (es : List Edit) : PieceTable :=
  es.foldl (fun t e =>
    match applyEdit e t with
    | .ok t' => t'
    | .error _ => t) t

theorem runEdits_reachable : ∀ (es : List Edit) (t : PieceTable),
    Reachable t → Reachable (runEdits t es)
  | [], t, h => h
  | e :: es, t, h => by
    have hstep : Reachable (match applyEdit e t with
        | .ok t' => t'
        | .error _ => t) := by
      cases happ : applyEdit e t with
      | ok t' => exact Reachable.edit e h happ
      | error _ => exact h
    simpa [runEdits, List.foldl_cons] using runEdits_reachable es _ hstep

/-! ### Claim theorems -/

/-- C1: the claim states that `remove(pos, n)` always deletes exactly the
byte range `[pos, pos+n)` of the rendered text, the trailing remainder of a
Slice-case removal referencing exactly the bytes that followed the removed
window.  The code computes the trailing piece's offset as the local offset
plus `n`, forgetting the piece's own offset, so on `create("abcd")`,
`remove(0,1)` (text "bcd"), `remove(1,1)` the rendered text is "bc" instead
of the required "bd": the trailing piece references byte 'c' instead of 'd'. -/
theorem C1_slice_arm_divergence :
    (runEdits (PieceTable.fromString ['a', 'b', 'c', 'd']) [Edit.rem 0 1]).render
      = ['b', 'c', 'd'] ∧
    (runEdits (PieceTable.fromString ['a', 'b', 'c', 'd'])
      [Edit.rem 0 1, Edit.rem 1 1]).render = ['b', 'c'] ∧
    ¬ (runEdits (PieceTable.fromString ['a', 'b', 'c', 'd'])
        [Edit.rem 0 1, Edit.rem 1 1]).render
      = strSlice (runEdits (PieceTable.fromString ['a', 'b', 'c', 'd'])
          [Edit.rem 0 1]).render 0 1
        ++ List.drop 2 (runEdits (PieceTable.fromString ['a', 'b', 'c', 'd'])
          [Edit.rem 0 1]).render := by
  refine ⟨by decide, by decide, by decide⟩

/-- C2 (as stated) is false: in the commit of `remove(5, 2)` on the buffer
built by `create("Hello,")`, `insert(6, " World!")` — the repo's own
`cross_piece` test scenario — the change list is
Deletion@1, Insertion@1, Deletion@0, Insertion@0, so a Deletion appears
after an Insertion. -/
theorem C2_counterexample :
    ¬ delsBeforeIns (headCommit (runEdits
      (PieceTable.fromString ['H', 'e', 'l', 'l', 'o', ','])
      [Edit.ins 6 [' ', 'W', 'o', 'r', 'l', 'd', '!'], Edit.rem 5 2])).changes := by
  decide

/-- C2 (amended): the change list of the commit produced by a single
mutating call is exactly the concatenation of the call's
per-piece-operation change blocks (`editBlocks`, translated from the
source's commit construction: one lone-Insertion block for a non-splitting
insert, one Deletion-then-three-Insertions block for a splitting insert,
and for remove one block per classified piece operation in reverse index
order), and within every such block each Deletion precedes each Insertion;
across different per-piece operations of one multi-piece remove no such
order holds (see the counterexample). -/
theorem C2_commit_blocks (t t' : PieceTable) (e : Edit)
    (h : Reachable t) (hok : applyEdit e t = .ok t') :
    (headCommit t').changes = (editBlocks e t).flatten ∧
    ∀ b ∈ editBlocks e t, blockOk b :=
  edit_commit_blocks t t' e (reachable_wf t h).hist_ne (reachable_wf t h).head_lt hok

theorem C2_witness :
    (headCommit (runEdits
        (runEdits (PieceTable.fromString ['H', 'e', 'l', 'l', 'o', ','])
          [Edit.ins 6 [' ', 'W', 'o', 'r', 'l', 'd', '!']])
        [Edit.rem 5 2])).changes
      = (editBlocks (Edit.rem 5 2)
          (runEdits (PieceTable.fromString ['H', 'e', 'l', 'l', 'o', ','])
            [Edit.ins 6 [' ', 'W', 'o', 'r', 'l', 'd', '!']])).flatten ∧
    ∀ b ∈ editBlocks (Edit.rem 5 2)
        (runEdits (PieceTable.fromString ['H', 'e', 'l', 'l', 'o', ','])
          [Edit.ins 6 [' ', 'W', 'o', 'r', 'l', 'd', '!']]), blockOk b :=
  C2_commit_blocks
    (runEdits (PieceTable.fromString ['H', 'e', 'l', 'l', 'o', ','])
      [Edit.ins 6 [' ', 'W', 'o', 'r', 'l', 'd', '!']])
    (runEdits
      (runEdits (PieceTable.fromString ['H', 'e', 'l', 'l', 'o', ','])
        [Edit.ins 6 [' ', 'W', 'o', 'r', 'l', 'd', '!']])
      [Edit.rem 5 2])
    (Edit.rem 5 2)
    (runEdits_reachable _ _ (Reachable.create _)) (by rfl)

/-- C3: on a reachable buffer, a valid `remove(pos, n)` followed by `undo`
restores the piece sequence, total length and rendered text exactly. -/
theorem C3_remove_undo_roundtrip (t : PieceTable) (pos n : Nat)
    (h : Reachable t) (hn : 1 ≤ n) (hrange : pos + n ≤ t.total_length) :
    ∃ t' t'' : PieceTable,
      t.remove pos n = .ok t' ∧ t'.undo = .ok t'' ∧
      t''.pieces = t.pieces ∧ t''.total_length = t.total_length ∧
      t''.render = t.render := by
  have hWF := reachable_wf t h
  obtain ⟨t', hrm⟩ := remove_total t hWF pos n (by omega) hrange
  obtain ⟨t2, t3, hundo, hp, htl, ho, ha, _, _, _, _, _, _⟩ :=
    edit_undo_redo t t' (Edit.rem pos n) hWF hrm
  obtain ⟨c, _, _, _, haddeq, _, _, _, _, _, _, _⟩ :=
    remove_shape t t' pos n hWF.sum_eq hWF.pieces_wf hWF.pieces_pos hrm
  exact ⟨t', t2, hrm, hundo, hp, htl,
    render_congr t2 t ho (by rw [ha]; exact haddeq) hp htl⟩

theorem C3_witness :
    ∃ t' t'' : PieceTable,
      (PieceTable.fromString ['a', 'b']).remove 0 1 = .ok t' ∧ t'.undo = .ok t'' ∧
      t''.pieces = (PieceTable.fromString ['a', 'b']).pieces ∧
      t''.total_length = (PieceTable.fromString ['a', 'b']).total_length ∧
      t''.render = (PieceTable.fromString ['a', 'b']).render :=
  C3_remove_undo_roundtrip (PieceTable.fromString ['a', 'b']) 0 1
    (Reachable.create _) (by decide) (by decide)

/-- C4: on a reachable buffer, after any single successful edit,
`undo` then `hot_redo` reproduce the exact post-edit piece sequence, total
length, rendered text, and history head. -/
theorem C4_undo_hot_redo_inverse (t t' : PieceTable) (e : Edit)
    (h : Reachable t) (hok : applyEdit e t = .ok t') :
    ∃ t'' t''' : PieceTable,
      t'.undo = .ok t'' ∧ t''.hot_redo = .ok t''' ∧
      t'''.pieces = t'.pieces ∧ t'''.total_length = t'.total_length ∧
      t'''.render = t'.render ∧ t'''.history.head = t'.history.head := by
  obtain ⟨t2, t3, hundo, _, _, _, _, hredok, hp3, htl3, ho3, ha3, hhead⟩ :=
    edit_undo_redo t t' e (reachable_wf t h) hok
  exact ⟨t2, t3, hundo, hredok, hp3, htl3, render_congr t3 t' ho3 ha3 hp3 htl3, hhead⟩

theorem C4_witness :
    ∃ t'' t''' : PieceTable,
      (runEdits (PieceTable.fromString ['a', 'b']) [Edit.app ['c']]).undo = .ok t'' ∧
      t''.hot_redo = .ok t''' ∧
      t'''.pieces = (runEdits (PieceTable.fromString ['a', 'b'])
        [Edit.app ['c']]).pieces ∧
      t'''.total_length = (runEdits (PieceTable.fromString ['a', 'b'])
        [Edit.app ['c']]).total_length ∧
      t'''.render = (runEdits (PieceTable.fromString ['a', 'b'])
        [Edit.app ['c']]).render ∧
      t'''.history.head = (runEdits (PieceTable.fromString ['a', 'b'])
        [Edit.app ['c']]).history.head :=
  C4_undo_hot_redo_inverse (PieceTable.fromString ['a', 'b'])
    (runEdits (PieceTable.fromString ['a', 'b']) [Edit.app ['c']]) (Edit.app ['c'])
    (Reachable.create _) (by rfl)

/-- C5: on a reachable buffer, for all valid bounds, `_slice(i, j)` returns
exactly the byte range `[i, j)` of the rendered text. -/
theorem C5_slice_consistency (t : PieceTable) (h : Reachable t) (i j : Nat)
    (hij : i < j) (hj : j ≤ t.total_length) :
    t.sliceImpl i j = .ok (strSlice t.render i j) :=
  sliceImpl_spec t (reachable_wf t h) i j hij hj

theorem C5_witness :
    (runEdits (PieceTable.fromString ['H', 'e', 'l', 'd', '!'])
      [Edit.ins 2 ['l', 'l', 'o', 'r'], Edit.ins 4 ['o', ',', ' ', 'W']]).sliceImpl 3 7
    = .ok (strSlice (runEdits (PieceTable.fromString ['H', 'e', 'l', 'd', '!'])
      [Edit.ins 2 ['l', 'l', 'o', 'r'], Edit.ins 4 ['o', ',', ' ', 'W']]).render 3 7) :=
  C5_slice_consistency _ (runEdits_reachable _ _ (Reachable.create _)) 3 7
    (by decide) (by decide)

/-- C6: after any sequence of public operations, the stored total length,
the sum of the piece lengths, and the length of the rendered text agree. -/
theorem C6_length_invariant (t : PieceTable) (h : Reachable t) :
    t.total_length = sumLens t.pieces ∧ t.total_length = t.render.length := by
  have hWF := reachable_wf t h
  refine ⟨hWF.sum_eq, ?_⟩
  rw [render_eq t hWF, piecesText_length t.original t.addition t.pieces hWF.pieces_wf,
    hWF.sum_eq]

theorem C6_witness :
    (runEdits (PieceTable.fromString ['H', 'e', 'l', 'd', '!'])
      [Edit.ins 2 ['l', 'l', 'o', 'r'], Edit.rem 1 3]).total_length
      = sumLens (runEdits (PieceTable.fromString ['H', 'e', 'l', 'd', '!'])
        [Edit.ins 2 ['l', 'l', 'o', 'r'], Edit.rem 1 3]).pieces ∧
    (runEdits (PieceTable.fromString ['H', 'e', 'l', 'd', '!'])
      [Edit.ins 2 ['l', 'l', 'o', 'r'], Edit.rem 1 3]).total_length
      = (runEdits (PieceTable.fromString ['H', 'e', 'l', 'd', '!'])
        [Edit.ins 2 ['l', 'l', 'o', 'r'], Edit.rem 1 3]).render.length :=
  C6_length_invariant _ (runEdits_reachable _ _ (Reachable.create _))

/-- C7 (as stated) is false: with `pos` beyond the document length,
`remove(pos, 0)` trips the out-of-range assertion, which the code checks
first, not the `EmptyInput` one. -/
theorem C7_counterexample :
    (PieceTable.fromString ['a']).remove 2 0 = .error .outOfRange ∧
    Err.outOfRange ≠ Err.emptyInput :=
  ⟨rfl, by decide⟩

/-- C7 (amended): `remove(pos, 0)` fails with `EmptyInput` exactly when
`pos` does not exceed the document length; when `pos` exceeds it, the
out-of-range check fires first and the call fails with `OutOfRange`. -/
theorem C7_remove_zero (t : PieceTable) (pos : Nat) :
    (pos ≤ t.total_length → t.remove pos 0 = .error .emptyInput) ∧
    (pos > t.total_length → t.remove pos 0 = .error .outOfRange) := by
  constructor
  · intro h
    simp only [PieceTable.remove]
    rw [if_neg (by omega)]
    simp
  · intro h
    simp only [PieceTable.remove]
    rw [if_pos (by omega)]

theorem C7_witness :
    (PieceTable.fromString ['a']).remove 1 0 = .error .emptyInput ∧
    (PieceTable.fromString ['a']).remove 2 0 = .error .outOfRange :=
  ⟨(C7_remove_zero (PieceTable.fromString ['a']) 1).1 (by decide),
   (C7_remove_zero (PieceTable.fromString ['a']) 2).2 (by decide)⟩

/-- C8: on a reachable buffer, `insert`, `remove` and `_slice` reject
invalid arguments with the documented distinct condition, the rejection is
decided by the pre-state alone before anything is modified (the embedding
returns the error without producing any successor state), and with valid
arguments no failure occurs. -/
theorem C8_validation_rejections (t : PieceTable) (h : Reachable t) :
    (∀ pos s, (pos > t.total_length → t.insert pos s = .error .outOfRange) ∧
      (pos ≤ t.total_length → s = [] → t.insert pos s = .error .emptyInput) ∧
      (pos ≤ t.total_length → s ≠ [] → ∃ t', t.insert pos s = .ok t')) ∧
    (∀ pos n, (pos + n > t.total_length → t.remove pos n = .error .outOfRange) ∧
      (pos + n ≤ t.total_length → n = 0 → t.remove pos n = .error .emptyInput) ∧
      (pos + n ≤ t.total_length → n ≠ 0 → ∃ t', t.remove pos n = .ok t')) ∧
    (∀ lo hi, (hi ≤ lo → t.sliceImpl lo hi = .error .invalidRange) ∧
      (lo < hi → t.total_length < hi → t.sliceImpl lo hi = .error .outOfRange) ∧
      (lo < hi → hi ≤ t.total_length → ∃ s, t.sliceImpl lo hi = .ok s)) := by
  have hWF := reachable_wf t h
  refine ⟨fun pos s => ⟨?_, ?_, ?_⟩, fun pos n => ⟨?_, ?_, ?_⟩, fun lo hi => ⟨?_, ?_, ?_⟩⟩
  · intro hc
    simp only [PieceTable.insert]
    rw [if_pos hc]
  · intro h1 h2
    simp only [PieceTable.insert]
    rw [if_neg (by omega), if_pos (by simp [h2])]
  · intro h1 h2
    refine insert_total t hWF pos s h1 ?_
    cases s with
    | nil => exact absurd rfl h2
    | cons a as => simp
  · intro hc
    simp only [PieceTable.remove]
    rw [if_pos hc]
  · intro h1 h2
    simp only [PieceTable.remove]
    rw [if_neg (by omega), if_pos h2]
  · intro h1 h2
    exact remove_total t hWF pos n h2 h1
  · intro hc
    simp only [PieceTable.sliceImpl]
    rw [if_pos (by omega)]
  · intro h1 h2
    simp only [PieceTable.sliceImpl]
    rw [if_neg (by omega), if_pos (by omega)]
  · intro h1 h2
    simp only [PieceTable.sliceImpl]
    rw [if_neg (by omega), if_neg (by omega)]
    exact ⟨_, rfl⟩

theorem C8_witness :
    ((PieceTable.fromString ['a', 'b']).insert 3 ['x'] = .error .outOfRange) ∧
    ((PieceTable.fromString ['a', 'b']).remove 0 0 = .error .emptyInput) ∧
    (∃ s, (PieceTable.fromString ['a', 'b']).sliceImpl 0 1 = .ok s) :=
  ⟨((C8_validation_rejections _ (Reachable.create ['a', 'b'])).1 3 ['x']).1 (by decide),
   ((C8_validation_rejections _ (Reachable.create ['a', 'b'])).2.1 0 0).2.1
     (by decide) rfl,
   ((C8_validation_rejections _ (Reachable.create ['a', 'b'])).2.2 0 1).2.2
     (by decide) (by decide)⟩

/-- C9: on a reachable buffer, no fatal internal-consistency assertion is
reachable: `undo` and `hot_redo` always run to completion (all replay
bounds checks pass), the history head is in bounds, any hot child is a
listed in-bounds child, and `save` never trips its assertions. -/
theorem C9_no_fatal_checks (t : PieceTable) (h : Reachable t) :
    (∃ t', t.undo = .ok t') ∧ (∃ t', t.hot_redo = .ok t') ∧
    t.history.changes ≠ [] ∧
    t.history.head < t.history.changes.length ∧
    (∀ j, (histAt t t.history.head).hot_path = some j →
      j ∈ (histAt t t.history.head).next ∧ j < t.history.changes.length) ∧
    (∀ c : Commit, ∃ h', t.history.save c = .ok h') := by
  have hWF := reachable_wf t h
  obtain ⟨t1, h1, -, -⟩ := undo_total t hWF
  obtain ⟨t2, h2, -, -⟩ := hot_redo_total t hWF
  refine ⟨⟨t1, h1⟩, ⟨t2, h2⟩, hWF.hist_ne, hWF.head_lt, ?_, ?_⟩
  · intro j hj
    have hmem := hWF.hot_next _ hWF.head_lt j hj
    exact ⟨hmem, (hWF.next_prev _ hWF.head_lt j hmem).1⟩
  · intro c
    exact ⟨_, History.save_ok t.history c hWF.hist_ne hWF.head_lt⟩

theorem C9_witness :
    (∃ t', (runEdits (PieceTable.fromString ['a', 'b'])
      [Edit.app ['c'], Edit.rem 0 2]).undo = .ok t') ∧
    (∃ t', (runEdits (PieceTable.fromString ['a', 'b'])
      [Edit.app ['c'], Edit.rem 0 2]).hot_redo = .ok t') ∧
    (runEdits (PieceTable.fromString ['a', 'b'])
      [Edit.app ['c'], Edit.rem 0 2]).history.changes ≠ [] ∧
    (runEdits (PieceTable.fromString ['a', 'b'])
      [Edit.app ['c'], Edit.rem 0 2]).history.head
      < (runEdits (PieceTable.fromString ['a', 'b'])
        [Edit.app ['c'], Edit.rem 0 2]).history.changes.length ∧
    (∀ j, (histAt (runEdits (PieceTable.fromString ['a', 'b'])
        [Edit.app ['c'], Edit.rem 0 2])
        (runEdits (PieceTable.fromString ['a', 'b'])
          [Edit.app ['c'], Edit.rem 0 2]).history.head).hot_path = some j →
      j ∈ (histAt (runEdits (PieceTable.fromString ['a', 'b'])
        [Edit.app ['c'], Edit.rem 0 2])
        (runEdits (PieceTable.fromString ['a', 'b'])
          [Edit.app ['c'], Edit.rem 0 2]).history.head).next ∧
      j < (runEdits (PieceTable.fromString ['a', 'b'])
        [Edit.app ['c'], Edit.rem 0 2]).history.changes.length) ∧
    (∀ c : Commit, ∃ h', (runEdits (PieceTable.fromString ['a', 'b'])
      [Edit.app ['c'], Edit.rem 0 2]).history.save c = .ok h') :=
  C9_no_fatal_checks _ (runEdits_reachable _ _ (Reachable.create _))

/-- C10: on a reachable buffer whose history head is the root entry,
`undo` is a no-op: it returns successfully and the buffer (head, piece
sequence, length, text) is completely unchanged. -/
theorem C10_undo_at_root (t : PieceTable) (h : Reachable t)
    (hroot : (histAt t t.history.head).previous = none) :
    t.undo = .ok t := by
  obtain ⟨t', hok, -, hid⟩ := undo_total t (reachable_wf t h)
  rw [hok, hid hroot]

theorem C10_witness :
    (PieceTable.fromString ['a', 'b']).undo = .ok (PieceTable.fromString ['a', 'b']) :=
  C10_undo_at_root (PieceTable.fromString ['a', 'b']) (Reachable.create _) (by rfl)
